import Mathlib

/-!
Verification of the token-marking algorithm of `asttokens/mark_tokens.py`.

The token stream accessor and generic tree-walk utilities (`util.py`,
`asttokens.py`) are not part of the sources; they are modelled from the
spec's interface contracts (section 6).  Everything in `MarkTokens`
itself is translated directly from `mark_tokens.py`.
-/

/-- Token categories, following the tokenizer's classification
(name, operator, literal, newline, end-marker, ...). -/
inductive TokKind where
  | OP
  | NAME
  | NUMBER
  | STRINGLIT
  | NEWLINE
  | INDENT
  | DEDENT
  | ENDMARKER
  | ENCODING
deriving DecidableEq, Repr

/-- A token: kind and exact source text.  Its index in the stream is its
position in the `CodeT.toks` list. -/
structure Tok where
  kind : TokKind
  text : String
deriving DecidableEq, Repr

/-- Modelled from the spec: the Token Stream Accessor, an ordered,
indexable, immutable sequence of tokens (`self._code`). -/
structure CodeT where
  toks : List Tok
deriving DecidableEq, Repr

/-- The token stored at index `i` (out-of-range reads give a dummy
end-marker; all verified runs stay in range). -/
def tokAt (c : CodeT) (i : Nat) : Tok := c.toks.getD i ⟨TokKind.ENDMARKER, ""⟩

/-- `tok[:2]`: the (kind, text) pair used for bracket matching. -/
def tokPair (c : CodeT) (i : Nat) : TokKind × String := ((tokAt c i).kind, (tokAt c i).text)

/-- Modelled from the spec: `next(token)` — step to the adjacent token,
fails if no successor exists in the stream. -/
def nextToken (c : CodeT) (i : Nat) : Option Nat :=
  if i + 1 < c.toks.length then some (i + 1) else none

/-- Modelled from the spec: `prev(token)` — step to the adjacent token,
fails if no predecessor exists in the stream. -/
def prevToken (_c : CodeT) (i : Nat) : Option Nat :=
  if 0 < i then some (i - 1) else none

/-- Modelled from the spec: `tokens_between(a, b)`: the token indices from
`a` to `b` inclusive, empty when `a > b`. -/
def tokenRange (a b : Nat) : List Nat := List.range' a (b + 1 - a)

/-- `util.match_token(tok, kind, text?)`: kind matches and, when given,
the text matches. -/
def matchTokB (c : CodeT) (i : Nat) (k : TokKind) (s : Option String) : Bool :=
  (tokAt c i).kind == k &&
    (match s with
     | none => true
     | some str => (tokAt c i).text == str)

/-- The forward token search loop, indexed by fuel (the fuel used below
always suffices, so the outer function is the loop's exact behaviour):
scan forward for a (kind, text?) match, failing at the stream end. -/
def findFwdGo (c : CodeT) (k : TokKind) (s : Option String) : Nat → Nat → Option Nat
  | 0, _ => none
  | fuel + 1, i =>
      if i < c.toks.length then
        (if matchTokB c i k s then some i else findFwdGo c k s fuel (i + 1))
      else none

/-- Modelled from the spec: `find(from_token, predicate, forward)` — scan
forward from the given token for a (kind, text?) match; fails if none is
found before the end of the stream. -/
def findTokenFwd (c : CodeT) (i : Nat) (k : TokKind) (s : Option String) : Option Nat :=
  findFwdGo c k s (c.toks.length + 1 - i) i

/-- The backward token search loop, indexed by fuel. -/
def findRevGo (c : CodeT) (k : TokKind) (s : Option String) : Nat → Nat → Option Nat
  | 0, _ => none
  | fuel + 1, i =>
      if matchTokB c i k s then some i
      else if 0 < i then findRevGo c k s fuel (i - 1)
      else none

/-- Modelled from the spec: `find(from_token, predicate, backward)` — scan
backward from the given token; fails if none is found before the start of
the stream. -/
def findTokenRev (c : CodeT) (i : Nat) (k : TokKind) (s : Option String) : Option Nat :=
  findRevGo c k s (i + 1) i

/-- `_matching_pairs_left`: map an opening delimiter to its closer. -/
def matchingPairsLeft (p : TokKind × String) : Option (TokKind × String) :=
  if p = (TokKind.OP, "(") then some (TokKind.OP, ")")
  else if p = (TokKind.OP, "[") then some (TokKind.OP, "]")
  else if p = (TokKind.OP, "\x7b") then some (TokKind.OP, "\x7d")
  else none

/-- `_matching_pairs_right`: map a closing delimiter to its opener. -/
def matchingPairsRight (p : TokKind × String) : Option (TokKind × String) :=
  if p = (TokKind.OP, ")") then some (TokKind.OP, "(")
  else if p = (TokKind.OP, "]") then some (TokKind.OP, "[")
  else if p = (TokKind.OP, "\x7d") then some (TokKind.OP, "\x7b")
  else none

/-- Node kinds relevant to the per-kind refinement dispatch
(`visit_<kind>` methods); `other` is any kind using `visit_default`,
`stmt` is any `ast.stmt` subclass (also using `visit_default`). -/
inductive NodeKind where
  | stmt
  | listcomp
  | comprehension
  | attr
  | call
  | subscript
  | tuple
  | num
  | keywordArg (arg : Option String)
  | other
deriving DecidableEq, Repr

/-- `isinstance(node, ast.stmt)`. -/
def isStmt (k : NodeKind) : Bool := k == NodeKind.stmt

/-- Modelled from the spec: the parse-tree node — a kind tag, an optional
intrinsic anchor position (already resolved to a token index, as
`get_token_from_utf8` does), the stored mark fields (written by a previous
marking run, never read by the algorithm), and the ordered child list
(construction order, not necessarily source order). -/
inductive Node where
  | mk (kind : NodeKind) (anchor : Option Nat) (marks : Option (Nat × Nat)) (children : List Node)

def Node.kind : Node → NodeKind
  | .mk k _ _ _ => k

def Node.anchor : Node → Option Nat
  | .mk _ a _ _ => a

def Node.children : Node → List Node
  | .mk _ _ _ cs => cs

/-- The result of marking one node: its final `(first_token, last_token)`
range plus the marked children. -/
inductive Marked where
  | mk (kind : NodeKind) (first last : Nat) (children : List Marked)

def Marked.kind : Marked → NodeKind
  | .mk k _ _ _ => k

def Marked.first : Marked → Nat
  | .mk _ f _ _ => f

def Marked.last : Marked → Nat
  | .mk _ _ l _ => l

def Marked.children : Marked → List Marked
  | .mk _ _ _ cs => cs

/-- The `(first_token, last_token)` pairs of a list of marked children. -/
def rangesOf (ms : List Marked) : List (Nat × Nat) := ms.map (fun m => (m.first, m.last))

/-- `_iter_non_child_tokens`: all tokens in `[first, last]` that the walk
attributes to no child — walking `tok` through the children in tree
order, yielding `token_range(tok, prev(child.first))` before each child
and stopping once a child reaches `last`. -/
def iterNonChildTokens (c : CodeT) (first last : Nat) : List (Nat × Nat) → Option (List Nat)
  | [] => some (tokenRange first last)
  | (f, l) :: rest => do
      let p ← prevToken c f
      let seg := tokenRange first p
      if last ≤ l then
        some seg
      else do
        let tok ← nextToken c l
        let more ← iterNonChildTokens c tok last rest
        some (seg ++ more)

/-- One unmatched-bracket bookkeeping step that records an opener's
expected closer or a closer's expected opener. -/
def scanPush (ti : TokKind × String)
    (st : List (TokKind × String) × List (TokKind × String)) :
    List (TokKind × String) × List (TokKind × String) :=
  match matchingPairsLeft ti with
  | some cl => (cl :: st.1, st.2)
  | none =>
      match matchingPairsRight ti with
      | some op => (st.1, st.2 ++ [op])
      | none => st

/-- The body of `_expand_to_matching_pairs`'s scan loop: pop the pending
closer stack on a match, otherwise record the token if it is a bracket.
The pending-closer stack `st.1` keeps its most recent entry at the head;
`st.2` lists needed openers in encounter order. -/
def scanStep (c : CodeT)
    (st : List (TokKind × String) × List (TokKind × String)) (i : Nat) :
    List (TokKind × String) × List (TokKind × String) :=
  let ti := tokPair c i
  match st.1 with
  | r :: rs => if ti = r then (rs, st.2) else scanPush ti st
  | [] => scanPush ti st

/-- The scan of `_expand_to_matching_pairs`: returns
(`to_match_right` with its most recent entry first, `to_match_left` in
encounter order). -/
def scanBrackets (c : CodeT) (gs : List Nat) :
    List (TokKind × String) × List (TokKind × String) :=
  gs.foldl (scanStep c) ([], [])

/-- The `reversed(to_match_right)` loop: advance `last` one token at a
time, asserting each new token equals the expected closer
(`util.expect_token`). -/
def extendRight (c : CodeT) : Nat → List (TokKind × String) → Option Nat
  | l, [] => some l
  | l, m :: ms => do
      let l' ← nextToken c l
      if tokPair c l' = m then extendRight c l' ms else none

/-- The `to_match_left` loop: step `first` one token at a time backward,
asserting each new token equals the expected opener. -/
def extendLeft (c : CodeT) : Nat → List (TokKind × String) → Option Nat
  | f, [] => some f
  | f, m :: ms => do
      let f' ← prevToken c f
      if tokPair c f' = m then extendLeft c f' ms else none

/-- `_expand_to_matching_pairs`: scan the non-child tokens, then extend
`last` to match unclosed openers (most recent first) and `first` to match
unopened closers (encounter order). -/
def expandToMatchingPairs (c : CodeT) (first last : Nat) (rs : List (Nat × Nat)) :
    Option (Nat × Nat) := do
  let gs ← iterNonChildTokens c first last rs
  let st := scanBrackets c gs
  let l' ← extendRight c last st.1
  let f' ← extendLeft c first st.2
  some (f', l')

/-- `_find_last_in_line`: find the next NEWLINE (falling back to the
ENDMARKER when the search fails), then step one token back. -/
def findLastInLine (c : CodeT) (start : Nat) : Option Nat := do
  let nl ← match findTokenFwd c start TokKind.NEWLINE none with
           | some j => some j
           | none => findTokenFwd c start TokKind.ENDMARKER none
  prevToken c nl

/-- The loop of `visit_num`, indexed by fuel: while the last token is an
operator, step to the next token (an `IndexError` from `next_token`
propagates as `some none`); `none` means the fuel ran out before the loop
finished. -/
def visitNumGo (c : CodeT) : Nat → Nat → Option (Option Nat)
  | 0, _ => none
  | fuel + 1, l =>
      if (tokAt c l).kind == TokKind.OP then
        if l + 1 < c.toks.length then visitNumGo c fuel (l + 1) else some none
      else some (some l)

/-- The loop of `visit_num`: while the last token is an operator, step to
the next token.  A fuel of one more than the stream length always
suffices (proved below), so this is the loop's exact behaviour. -/
def visitNumLoop (c : CodeT) (l : Nat) : Option Nat :=
  match visitNumGo c (c.toks.length + 1) l with
  | some r => r
  | none => none

/-- `handle_comp`: back up one token and assert it is the expected opening
brace. -/
def handleComp (c : CodeT) (openBrace : String) (first last : Nat) : Option (Nat × Nat) := do
  let before ← prevToken c first
  if tokPair c before = (TokKind.OP, openBrace) then some (before, last) else none

/-- `handle_attr`: find the `.` after `last`, step to the following token
and assert it is a NAME. -/
def handleAttr (c : CodeT) (first last : Nat) : Option (Nat × Nat) := do
  let d ← findTokenFwd c last TokKind.OP (some ".")
  let nm ← nextToken c d
  if (tokAt c nm).kind == TokKind.NAME then some (first, nm) else none

/-- The node-kind refinement dispatch (`self._methods.get(...)`): the
`visit_<kind>` methods of `MarkTokens`, defaulting to `visit_default`. -/
def visitMethod (c : CodeT) (k : NodeKind) (first last : Nat) : Option (Nat × Nat) :=
  match k with
  | .listcomp => handleComp c "[" first last
  | .comprehension => do
      let f ← findTokenRev c first TokKind.NAME (some "for")
      some (f, last)
  | .attr => handleAttr c first last
  | .call => do
      let r ← findTokenFwd c last TokKind.OP (some ")")
      some (first, r)
  | .subscript => do
      let r ← findTokenFwd c last TokKind.OP (some "]")
      some (first, r)
  | .tuple =>
      (match nextToken c last with
       | some m => if tokPair c m = (TokKind.OP, ",") then some (first, m) else some (first, last)
       | none => some (first, last))
  | .num => do
      let l' ← visitNumLoop c last
      some (first, l')
  | .keywordArg none => some (first, last)
  | .keywordArg (some a) => do
      let eqTok ← findTokenRev c first TokKind.OP (some "=")
      let nm ← prevToken c eqTok
      if tokPair c nm = (TokKind.NAME, a) then some (nm, last) else none
  | _ => some (first, last)

/-- The child-combining fold for `first` (lines 63-69): start from the
node's own token and take any child whose `first_token` is smaller. -/
def combFirst (tok : Option Nat) (ms : List Marked) : Option Nat :=
  ms.foldl (fun f m =>
    match f with
    | none => some m.first
    | some fi => if m.first < fi then some m.first else some fi) tok

/-- The child-combining fold for `last`: take any child whose
`last_token` is larger. -/
def combLast (ms : List Marked) : Option Nat :=
  ms.foldl (fun l m =>
    match l with
    | none => some m.last
    | some li => if li < m.last then some m.last else some li) none

/-- Lines 78-80: statements continue to before NEWLINE. -/
def stmtLast (c : CodeT) (k : NodeKind) (l : Nat) : Option Nat :=
  if isStmt k then findLastInLine c l else some l

/-- The preliminary combined range of `_visit_after_children` (lines
63-80): child combination, parent-token and first-token fallbacks, and
the statement line extension, before any bracket repair. -/
def prelimRange (c : CodeT) (parentTok tok : Option Nat) (k : NodeKind) (ms : List Marked) :
    Option (Nat × Nat) := do
  let first ← (combFirst tok ms <|> parentTok)
  let last := (combLast ms).getD first
  let last2 ← stmtLast c k last
  some (first, last2)

/-- `_visit_after_children`: combine, repair, refine, repair again iff
the refinement changed anything, then store the final range. -/
def visitAfterChildren (c : CodeT) (parentTok tok : Option Nat) (k : NodeKind)
    (ms : List Marked) : Option Marked := do
  let (first, last) ← prelimRange c parentTok tok k ms
  let (f2, l2) ← expandToMatchingPairs c first last (rangesOf ms)
  let (nf, nl) ← visitMethod c k f2 l2
  let (f3, l3) ←
    if (nf, nl) = (f2, l2) then some (f2, l2)
    else expandToMatchingPairs c nf nl (rangesOf ms)
  some (Marked.mk k f3 l3 ms)

mutual
/-- One node's traversal step of `visit_tree`: relay the anchor to the
children (`_visit_before_children`), mark the children, then run
`_visit_after_children`. -/
def markNode (c : CodeT) (parentTok : Option Nat) : Node → Option Marked
  | .mk k anchor _ cs => do
      let ms ← markList c (anchor <|> parentTok) cs
      visitAfterChildren c parentTok anchor k ms

/-- Mark a list of sibling nodes in order. -/
def markList (c : CodeT) (pt : Option Nat) : List Node → Option (List Marked)
  | [] => some []
  | n :: ns => do
      let m ← markNode c pt n
      let ms ← markList c pt ns
      some (m :: ms)
end

/-- `MarkTokens.visit_tree`: mark a whole rooted tree (the traversal
starts with no inherited anchor). -/
def visitTree (c : CodeT) (n : Node) : Option Marked := markNode c none n

mutual
/-- Write a marking result back into the tree's stored mark fields, as
the in-place assignments `node.first_token = ...; node.last_token = ...`
do, leaving kinds, anchors and the tree structure untouched. -/
def writeMarks : Node → Marked → Node
  | .mk k a _ cs, m => .mk k a (some (m.first, m.last)) (writeMarksList cs m.children)

def writeMarksList : List Node → List Marked → List Node
  | [], _ => []
  | n :: ns, [] => n :: ns
  | n :: ns, m :: ms => writeMarks n m :: writeMarksList ns ms
end

/-- The three delimiter kinds as (opener, closer) pairs. -/
def pairsList : List ((TokKind × String) × (TokKind × String)) :=
  [((TokKind.OP, "("), (TokKind.OP, ")")),
   ((TokKind.OP, "["), (TokKind.OP, "]")),
   ((TokKind.OP, "\x7b"), (TokKind.OP, "\x7d"))]

/-- How many of the listed token indices hold the given (kind, text). -/
def countP (c : CodeT) (p : TokKind × String) (l : List Nat) : Nat :=
  (l.filter (fun i => decide (tokPair c i = p))).length

/-- The claim's balance property for one range: each delimiter kind has as
many openers as closers within `[f, l]`. -/
def balancedB (c : CodeT) (f l : Nat) : Bool :=
  pairsList.all (fun pr => countP c pr.1 (tokenRange f l) == countP c pr.2 (tokenRange f l))

mutual
/-- Balance of every node of a marked tree. -/
def balancedTreeB (c : CodeT) : Marked → Bool
  | .mk _ f l cs => balancedB c f l && balancedTreeList c cs

def balancedTreeList (c : CodeT) : List Marked → Bool
  | [] => true
  | m :: ms => balancedTreeB c m && balancedTreeList c ms
end

mutual
/-- The claim's containment property: every node's range contains every
child's range, throughout the marked tree. -/
def containedTreeB : Marked → Bool
  | .mk _ f l cs =>
      (rangesOf cs).all (fun r => decide (f ≤ r.1) && decide (r.2 ≤ l)) &&
        containedTreeList cs

def containedTreeList : List Marked → Bool
  | [] => true
  | m :: ms => containedTreeB m && containedTreeList ms
end

/-- The token at `i` is neither a NEWLINE nor the ENDMARKER. -/
def cleanTokB (c : CodeT) (i : Nat) : Bool :=
  !((tokAt c i).kind == TokKind.NEWLINE) && !((tokAt c i).kind == TokKind.ENDMARKER)

mutual
/-- Every node of the marked tree ends on a token that is neither a
NEWLINE nor the ENDMARKER (the spec's own §3 condition on `last_token`). -/
def cleanTreeB (c : CodeT) : Marked → Bool
  | .mk _ _ l cs => cleanTokB c l && cleanTreeList c cs

def cleanTreeList (c : CodeT) : List Marked → Bool
  | [] => true
  | m :: ms => cleanTreeB c m && cleanTreeList c ms
end

/-- Child ranges listed in strictly increasing source order: positive,
well-formed and pairwise disjoint. -/
def chainB : List (Nat × Nat) → Bool
  | [] => true
  | (f, l) :: rest =>
      decide (0 < f) && decide (f ≤ l) &&
        (match rest with
         | [] => true
         | (f', _) :: _ => decide (l + 1 ≤ f')) &&
        chainB rest

mutual
/-- The hypotheses of the order-dependent invariants: at every node the
children are enumerated in increasing source order with disjoint ranges,
and every node ends on a clean (non-NEWLINE, non-ENDMARKER) token. -/
def wfTreeB (c : CodeT) : Marked → Bool
  | .mk _ _ l cs => cleanTokB c l && chainB (rangesOf cs) && wfTreeList c cs

def wfTreeList (c : CodeT) : List Marked → Bool
  | [] => true
  | m :: ms => wfTreeB c m && wfTreeList c ms
end

/-- The gap-scan bookkeeping hypotheses relative to an enclosing range:
each child range sits inside `[a, last]`, starts after `a`, starts
positive, and the next child starts past it. -/
def childrenOrderedB (a last : Nat) : List (Nat × Nat) → Bool
  | [] => true
  | (f, l) :: rest =>
      decide (0 < f) && decide (a ≤ f) && decide (f ≤ l) && decide (l ≤ last) &&
        childrenOrderedB (l + 1) last rest

/-- Modelled from the spec: the tokens the Bracket Repair scan is said to
visit — exactly those in `[first, last]` that belong to no child range. -/
def gapSpec (first last : Nat) (rs : List (Nat × Nat)) : List Nat :=
  (tokenRange first last).filter
    (fun i => !(rs.any (fun r => decide (r.1 ≤ i) && decide (i ≤ r.2))))

/-- Count of occurrences of an element in a list, by decidable equality. -/
def countEq {α : Type} [DecidableEq α] (p : α) (l : List α) : Nat :=
  (l.filter (fun x => decide (x = p))).length

/-! ### Basic lemmas about the token-stream accessors -/

theorem nextToken_eq_some {c : CodeT} {i j : Nat} :
    nextToken c i = some j ↔ i + 1 < c.toks.length ∧ j = i + 1 := by
  unfold nextToken; split <;> simp_all [eq_comm]

theorem prevToken_eq_some {c : CodeT} {i j : Nat} :
    prevToken c i = some j ↔ 0 < i ∧ j = i - 1 := by
  unfold prevToken; split <;> simp_all [eq_comm]

theorem mem_tokenRange {a b i : Nat} : i ∈ tokenRange a b ↔ a ≤ i ∧ i ≤ b := by
  unfold tokenRange
  rw [List.mem_range'_1]
  omega

theorem tokenRange_nil {a b : Nat} (h : b < a) : tokenRange a b = [] := by
  unfold tokenRange
  have : b + 1 - a = 0 := by omega
  rw [this]
  rfl

theorem tokenRange_self {a : Nat} : tokenRange a a = [a] := by
  unfold tokenRange
  have : a + 1 - a = 1 := by omega
  rw [this]
  rfl

theorem tokenRange_split {a m b : Nat} (h0 : 0 < m) (h1 : a ≤ m) (h2 : m ≤ b + 1) :
    tokenRange a b = tokenRange a (m - 1) ++ tokenRange m b := by
  unfold tokenRange
  have h := List.range'_append a (m - a) (b + 1 - m) 1
  have e1 : a + 1 * (m - a) = m := by omega
  have e2 : b + 1 - m + (m - a) = b + 1 - a := by omega
  have e3 : m - 1 + 1 - a = m - a := by omega
  rw [e1, e2] at h
  rw [e3, ← h]

theorem tokenRange_cons {a b : Nat} (h : a ≤ b) :
    tokenRange a b = a :: tokenRange (a + 1) b := by
  unfold tokenRange
  have e : b + 1 - a = (b - a) + 1 := by omega
  rw [e, List.range'_succ]
  have e2 : b + 1 - (a + 1) = b - a := by omega
  rw [e2]

theorem tokenRange_concat {a b : Nat} (h : a ≤ b + 1) :
    tokenRange a (b + 1) = tokenRange a b ++ [b + 1] := by
  unfold tokenRange
  have e : b + 1 + 1 - a = (b + 1 - a) + 1 := by omega
  rw [e, List.range'_concat]
  have e2 : a + 1 * (b + 1 - a) = b + 1 := by omega
  rw [e2]

theorem countP_nil {c : CodeT} {p : TokKind × String} : countP c p [] = 0 := rfl

theorem countP_cons {c : CodeT} {p : TokKind × String} {i : Nat} {l : List Nat} :
    countP c p (i :: l) = (if tokPair c i = p then 1 else 0) + countP c p l := by
  unfold countP
  rw [List.filter_cons]
  split <;> simp_all <;> omega

theorem countP_append {c : CodeT} {p : TokKind × String} {l1 l2 : List Nat} :
    countP c p (l1 ++ l2) = countP c p l1 + countP c p l2 := by
  unfold countP
  rw [List.filter_append, List.length_append]

theorem countEq_nil {α : Type} [DecidableEq α] {p : α} : countEq p ([] : List α) = 0 := rfl

theorem countEq_cons {α : Type} [DecidableEq α] {p x : α} {l : List α} :
    countEq p (x :: l) = (if x = p then 1 else 0) + countEq p l := by
  unfold countEq
  rw [List.filter_cons]
  split <;> simp_all <;> omega

theorem countEq_append {α : Type} [DecidableEq α] {p : α} {l1 l2 : List α} :
    countEq p (l1 ++ l2) = countEq p l1 + countEq p l2 := by
  unfold countEq
  rw [List.filter_append, List.length_append]

theorem countEq_eq_zero {α : Type} [DecidableEq α] {p : α} {l : List α}
    (h : ∀ x ∈ l, x ≠ p) : countEq p l = 0 := by
  unfold countEq
  rw [List.length_eq_zero, List.filter_eq_nil]
  intro x hx
  simp [h x hx]

theorem tokAt_of_le_length {c : CodeT} {i : Nat} (h : c.toks.length ≤ i) :
    tokAt c i = ⟨TokKind.ENDMARKER, ""⟩ := by
  unfold tokAt
  exact List.getD_eq_default _ _ h

/-! ### Characterization of the directional token searches -/

theorem findFwdGo_some {c : CodeT} {k : TokKind} {s : Option String} :
    ∀ {fuel i j : Nat}, findFwdGo c k s fuel i = some j →
      i ≤ j ∧ j < c.toks.length ∧ matchTokB c j k s = true ∧
        ∀ j', i ≤ j' → j' < j → matchTokB c j' k s = false := by
  intro fuel
  induction fuel with
  | zero => intro i j h; simp [findFwdGo] at h
  | succ n ih =>
      intro i j h
      unfold findFwdGo at h
      by_cases hlen : i < c.toks.length
      · rw [if_pos hlen] at h
        by_cases hm : matchTokB c i k s = true
        · rw [if_pos hm] at h
          cases h
          exact ⟨Nat.le_refl _, hlen, hm, fun j' h1 h2 => by omega⟩
        · rw [if_neg hm] at h
          obtain ⟨h1, h2, h3, h4⟩ := ih h
          refine ⟨by omega, h2, h3, ?_⟩
          intro j' hj1 hj2
          rcases Nat.eq_or_lt_of_le hj1 with heq | hlt
          · subst heq
            simpa using hm
          · exact h4 j' (by omega) hj2
      · rw [if_neg hlen] at h
        cases h

theorem findFwdGo_none {c : CodeT} {k : TokKind} {s : Option String} :
    ∀ {fuel i : Nat}, c.toks.length < fuel + i → findFwdGo c k s fuel i = none →
      ∀ j, i ≤ j → j < c.toks.length → matchTokB c j k s = false := by
  intro fuel
  induction fuel with
  | zero => intro i hb h j h1 h2; omega
  | succ n ih =>
      intro i hb h j h1 h2
      unfold findFwdGo at h
      by_cases hlen : i < c.toks.length
      · rw [if_pos hlen] at h
        by_cases hm : matchTokB c i k s = true
        · rw [if_pos hm] at h; cases h
        · rw [if_neg hm] at h
          rcases Nat.eq_or_lt_of_le h1 with heq | hlt
          · subst heq
            simpa using hm
          · exact ih (by omega) h j (by omega) h2
      · omega

theorem findTokenFwd_some {c : CodeT} {i j : Nat} {k : TokKind} {s : Option String}
    (h : findTokenFwd c i k s = some j) :
    i ≤ j ∧ j < c.toks.length ∧ matchTokB c j k s = true ∧
      ∀ j', i ≤ j' → j' < j → matchTokB c j' k s = false :=
  findFwdGo_some h

theorem findTokenFwd_none {c : CodeT} {i : Nat} {k : TokKind} {s : Option String}
    (h : findTokenFwd c i k s = none) :
    ∀ j, i ≤ j → j < c.toks.length → matchTokB c j k s = false :=
  findFwdGo_none (by omega) h

theorem findRevGo_some {c : CodeT} {k : TokKind} {s : Option String} :
    ∀ {fuel i j : Nat}, findRevGo c k s fuel i = some j →
      j ≤ i ∧ matchTokB c j k s = true ∧
        ∀ j', j < j' → j' ≤ i → matchTokB c j' k s = false := by
  intro fuel
  induction fuel with
  | zero => intro i j h; simp [findRevGo] at h
  | succ n ih =>
      intro i j h
      unfold findRevGo at h
      by_cases hm : matchTokB c i k s = true
      · rw [if_pos hm] at h
        cases h
        exact ⟨Nat.le_refl _, hm, fun j' h1 h2 => by omega⟩
      · rw [if_neg hm] at h
        by_cases hpos : 0 < i
        · rw [if_pos hpos] at h
          obtain ⟨h1, h2, h3⟩ := ih h
          refine ⟨by omega, h2, ?_⟩
          intro j' hj1 hj2
          rcases Nat.eq_or_lt_of_le hj2 with heq | hlt
          · subst heq
            simpa using hm
          · exact h3 j' hj1 (by omega)
        · rw [if_neg hpos] at h
          cases h

theorem findTokenRev_some {c : CodeT} {i j : Nat} {k : TokKind} {s : Option String}
    (h : findTokenRev c i k s = some j) :
    j ≤ i ∧ matchTokB c j k s = true ∧
      ∀ j', j < j' → j' ≤ i → matchTokB c j' k s = false :=
  findRevGo_some h

/-! ### The bracket-extension loops -/

theorem extendRight_some {c : CodeT} :
    ∀ {ms : List (TokKind × String)} {l l' : Nat}, extendRight c l ms = some l' →
      l' = l + ms.length ∧ (ms ≠ [] → l' < c.toks.length) ∧
        ∀ p, countP c p (tokenRange (l + 1) l') = countEq p ms := by
  intro ms
  induction ms with
  | nil =>
      intro l l' h
      cases h
      refine ⟨by simp, by simp, ?_⟩
      intro p
      rw [tokenRange_nil (by omega)]
      rfl
  | cons m ms ih =>
      intro l l' h
      unfold extendRight at h
      rw [Option.bind_eq_bind] at h
      cases hn : nextToken c l with
      | none => rw [hn] at h; cases h
      | some l1 =>
          rw [hn] at h
          simp only [Option.some_bind] at h
          obtain ⟨hb, rfl⟩ := nextToken_eq_some.mp hn
          by_cases htok : tokPair c (l + 1) = m
          · rw [if_pos htok] at h
            obtain ⟨he1, he2, he3⟩ := ih h
            have hlen : l' = l + (m :: ms).length := by simp [he1]; omega
            refine ⟨hlen, fun _ => ?_, ?_⟩
            · by_cases hms : ms = []
              · subst hms
                simp at he1
                omega
              · exact he2 hms
            · intro p
              rw [tokenRange_cons (by omega), countP_cons, countEq_cons, he3 p, htok]
          · rw [if_neg htok] at h
            cases h

theorem extendLeft_some {c : CodeT} :
    ∀ {ms : List (TokKind × String)} {f f' : Nat}, extendLeft c f ms = some f' →
      f' + ms.length = f ∧
        ∀ p, countP c p (List.range' f' ms.length) = countEq p ms := by
  intro ms
  induction ms with
  | nil =>
      intro f f' h
      cases h
      exact ⟨by simp, fun p => rfl⟩
  | cons m ms ih =>
      intro f f' h
      unfold extendLeft at h
      rw [Option.bind_eq_bind] at h
      cases hn : prevToken c f with
      | none => rw [hn] at h; cases h
      | some f1 =>
          rw [hn] at h
          simp only [Option.some_bind] at h
          obtain ⟨hb, rfl⟩ := prevToken_eq_some.mp hn
          by_cases htok : tokPair c (f - 1) = m
          · rw [if_pos htok] at h
            obtain ⟨he1, he3⟩ := ih h
            have hlen : f' + (m :: ms).length = f := by
              simp only [List.length_cons]
              omega
            refine ⟨hlen, ?_⟩
            intro p
            simp only [List.length_cons]
            rw [List.range'_concat, countP_append, countEq_cons, he3 p]
            have hidx : f' + 1 * ms.length = f - 1 := by omega
            rw [hidx]
            have : countP c p [f - 1] = if m = p then 1 else 0 := by
              rw [show ([f - 1] : List Nat) = (f - 1) :: [] from rfl, countP_cons, countP_nil, htok]
              omega
            omega
          · rw [if_neg htok] at h
            cases h

/-! ### The numeric-literal operator-skipping loop -/

theorem visitNumGo_some_ge {c : CodeT} :
    ∀ {fuel l r : Nat}, visitNumGo c fuel l = some (some r) → l ≤ r := by
  intro fuel
  induction fuel with
  | zero => intro l r h; simp [visitNumGo] at h
  | succ n ih =>
      intro l r h
      unfold visitNumGo at h
      by_cases hop : ((tokAt c l).kind == TokKind.OP) = true
      · rw [if_pos hop] at h
        by_cases hlen : l + 1 < c.toks.length
        · rw [if_pos hlen] at h
          have := ih h
          omega
        · rw [if_neg hlen] at h
          cases h
      · rw [if_neg hop] at h
        cases h
        exact Nat.le_refl _

theorem visitNumGo_fuel_enough {c : CodeT} (fuel : Nat) :
    ∀ {l : Nat}, 1 ≤ fuel → c.toks.length + 1 ≤ fuel + l →
      ∃ r, visitNumGo c fuel l = some r := by
  induction fuel with
  | zero => intro l h1 _; exact absurd h1 (by decide)
  | succ n ih =>
      intro l _ h2
      unfold visitNumGo
      by_cases hop : ((tokAt c l).kind == TokKind.OP) = true
      · rw [if_pos hop]
        by_cases hlen : l + 1 < c.toks.length
        · rw [if_pos hlen]
          exact ih (by omega) (by omega)
        · rw [if_neg hlen]
          exact ⟨none, rfl⟩
      · rw [if_neg hop]
        exact ⟨some l, rfl⟩

theorem visitNumLoop_eq_go {c : CodeT} {l : Nat} :
    ∃ r, visitNumGo c (c.toks.length + 1) l = some r ∧ visitNumLoop c l = r := by
  obtain ⟨r, hr⟩ :=
    visitNumGo_fuel_enough (c := c) (c.toks.length + 1) (l := l) (by omega) (by omega)
  refine ⟨r, hr, ?_⟩
  unfold visitNumLoop
  rw [hr]

theorem visitNumLoop_some_ge {c : CodeT} {l r : Nat} (h : visitNumLoop c l = some r) :
    l ≤ r := by
  obtain ⟨r', hr', he⟩ := visitNumLoop_eq_go (c := c) (l := l)
  rw [he] at h
  subst h
  exact visitNumGo_some_ge hr'

/-! ### The per-kind refinements only widen ranges -/

theorem handleComp_widen {c : CodeT} {ob : String} {f l f' l' : Nat}
    (h : handleComp c ob f l = some (f', l')) : f' ≤ f ∧ l ≤ l' := by
  unfold handleComp at h
  rw [Option.bind_eq_bind] at h
  cases hp : prevToken c f with
  | none => rw [hp] at h; cases h
  | some b =>
      rw [hp] at h
      simp only [Option.some_bind] at h
      obtain ⟨hb, rfl⟩ := prevToken_eq_some.mp hp
      split at h
      · cases h
        omega
      · cases h

theorem handleAttr_widen {c : CodeT} {f l f' l' : Nat}
    (h : handleAttr c f l = some (f', l')) : f' ≤ f ∧ l ≤ l' := by
  unfold handleAttr at h
  rw [Option.bind_eq_bind] at h
  cases hd : findTokenFwd c l TokKind.OP (some ".") with
  | none => rw [hd] at h; cases h
  | some d =>
      rw [hd] at h
      simp only [Option.some_bind, Option.bind_eq_bind] at h
      cases hn : nextToken c d with
      | none => rw [hn] at h; cases h
      | some nm =>
          rw [hn] at h
          simp only [Option.some_bind] at h
          obtain ⟨hb, rfl⟩ := nextToken_eq_some.mp hn
          have hld := (findTokenFwd_some hd).1
          split at h
          · cases h
            omega
          · cases h

theorem visitMethod_widen {c : CodeT} {k : NodeKind} {f l f' l' : Nat}
    (h : visitMethod c k f l = some (f', l')) : f' ≤ f ∧ l ≤ l' := by
  cases k with
  | stmt =>
      simp only [visitMethod, Option.some.injEq, Prod.mk.injEq] at h
      omega
  | listcomp =>
      simp only [visitMethod] at h
      exact handleComp_widen h
  | comprehension =>
      simp only [visitMethod, Option.bind_eq_bind] at h
      cases hf : findTokenRev c f TokKind.NAME (some "for") with
      | none => rw [hf] at h; cases h
      | some j =>
          rw [hf] at h
          simp only [Option.some_bind, Option.some.injEq, Prod.mk.injEq] at h
          have := (findTokenRev_some hf).1
          omega
  | attr =>
      simp only [visitMethod] at h
      exact handleAttr_widen h
  | call =>
      simp only [visitMethod, Option.bind_eq_bind] at h
      cases hf : findTokenFwd c l TokKind.OP (some ")") with
      | none => rw [hf] at h; cases h
      | some j =>
          rw [hf] at h
          simp only [Option.some_bind, Option.some.injEq, Prod.mk.injEq] at h
          have := (findTokenFwd_some hf).1
          omega
  | subscript =>
      simp only [visitMethod, Option.bind_eq_bind] at h
      cases hf : findTokenFwd c l TokKind.OP (some "]") with
      | none => rw [hf] at h; cases h
      | some j =>
          rw [hf] at h
          simp only [Option.some_bind, Option.some.injEq, Prod.mk.injEq] at h
          have := (findTokenFwd_some hf).1
          omega
  | tuple =>
      cases hn : nextToken c l with
      | none =>
          simp only [visitMethod, hn, Option.some.injEq, Prod.mk.injEq] at h
          omega
      | some m =>
          obtain ⟨hb, rfl⟩ := nextToken_eq_some.mp hn
          simp only [visitMethod, hn] at h
          by_cases hc : tokPair c (l + 1) = (TokKind.OP, ",")
          · rw [if_pos hc] at h
            cases h
            omega
          · rw [if_neg hc] at h
            cases h
            omega
  | num =>
      simp only [visitMethod, Option.bind_eq_bind] at h
      cases hv : visitNumLoop c l with
      | none => rw [hv] at h; cases h
      | some r =>
          rw [hv] at h
          simp only [Option.some_bind, Option.some.injEq, Prod.mk.injEq] at h
          have := visitNumLoop_some_ge hv
          omega
  | keywordArg arg =>
      cases arg with
      | none =>
          simp only [visitMethod, Option.some.injEq, Prod.mk.injEq] at h
          omega
      | some a =>
          simp only [visitMethod, Option.bind_eq_bind] at h
          cases he : findTokenRev c f TokKind.OP (some "=") with
          | none => rw [he] at h; cases h
          | some eqTok =>
              rw [he] at h
              simp only [Option.some_bind, Option.bind_eq_bind] at h
              cases hp : prevToken c eqTok with
              | none => rw [hp] at h; cases h
              | some nm =>
                  rw [hp] at h
                  simp only [Option.some_bind] at h
                  obtain ⟨hb, rfl⟩ := prevToken_eq_some.mp hp
                  have := (findTokenRev_some he).1
                  split at h
                  · simp only [Option.some.injEq, Prod.mk.injEq] at h
                    omega
                  · cases h
  | other =>
      simp only [visitMethod, Option.some.injEq, Prod.mk.injEq] at h
      omega

/-! ### The gap scan on source-ordered children -/

theorem childrenOrderedB_bounds :
    ∀ {rs : List (Nat × Nat)} {a last : Nat}, childrenOrderedB a last rs = true →
      ∀ r ∈ rs, a ≤ r.1 ∧ 0 < r.1 ∧ r.1 ≤ r.2 ∧ r.2 ≤ last := by
  intro rs
  induction rs with
  | nil => intro a last _ r hr; cases hr
  | cons hd tl ih =>
      intro a last h r hr
      obtain ⟨f, l⟩ := hd
      unfold childrenOrderedB at h
      simp only [Bool.and_eq_true, decide_eq_true_eq] at h
      obtain ⟨⟨⟨⟨h1, h2⟩, h3⟩, h4⟩, h5⟩ := h
      cases hr with
      | head => exact ⟨h2, h1, h3, h4⟩
      | tail _ hr' =>
          have := ih h5 r hr'
          exact ⟨by omega, this.2.1, this.2.2.1, this.2.2.2⟩

theorem childrenOrderedB_nil_of_lt {rs : List (Nat × Nat)} {a last : Nat}
    (h : childrenOrderedB a last rs = true) (hlt : last < a) : rs = [] := by
  cases rs with
  | nil => rfl
  | cons hd tl =>
      obtain ⟨f, l⟩ := hd
      unfold childrenOrderedB at h
      simp only [Bool.and_eq_true, decide_eq_true_eq] at h
      omega

theorem gapSpec_nil {a last : Nat} : gapSpec a last [] = tokenRange a last := by
  unfold gapSpec
  apply List.filter_eq_self.mpr
  intro i _
  simp

theorem gapSpec_cons {a last f l : Nat} {rest : List (Nat × Nat)}
    (h : childrenOrderedB a last ((f, l) :: rest) = true) :
    gapSpec a last ((f, l) :: rest) = tokenRange a (f - 1) ++ gapSpec (l + 1) last rest := by
  have hco := h
  unfold childrenOrderedB at hco
  simp only [Bool.and_eq_true, decide_eq_true_eq] at hco
  obtain ⟨⟨⟨⟨h1, h2⟩, h3⟩, h4⟩, h5⟩ := hco
  unfold gapSpec
  rw [tokenRange_split (m := f) h1 h2 (by omega)]
  rw [tokenRange_split (m := l + 1) (b := last) (by omega) (by omega) (by omega)]
  rw [List.filter_append, List.filter_append]
  have e1 : l + 1 - 1 = l := by omega
  rw [e1]
  have hrest := childrenOrderedB_bounds h5
  have p1 : List.filter
      (fun i => !((f, l) :: rest).any (fun r => decide (r.1 ≤ i) && decide (i ≤ r.2)))
      (tokenRange a (f - 1)) = tokenRange a (f - 1) := by
    apply List.filter_eq_self.mpr
    intro i hi
    rw [mem_tokenRange] at hi
    simp only [List.any_cons, Bool.not_eq_true', Bool.or_eq_false_iff,
      Bool.and_eq_false_iff, decide_eq_false_iff_not, List.any_eq_false]
    constructor
    · left; omega
    · intro r hr
      have hb := hrest r hr
      intro h'
      simp only [Bool.and_eq_true, decide_eq_true_eq] at h'
      omega
  have p2 : List.filter
      (fun i => !((f, l) :: rest).any (fun r => decide (r.1 ≤ i) && decide (i ≤ r.2)))
      (tokenRange f l) = [] := by
    rw [List.filter_eq_nil_iff]
    intro i hi
    rw [mem_tokenRange] at hi
    have hany : ((f, l) :: rest).any (fun r => decide (r.1 ≤ i) && decide (i ≤ r.2)) = true := by
      simp only [List.any_cons, Bool.or_eq_true, Bool.and_eq_true, decide_eq_true_eq]
      left
      omega
    simp [hany]
  have p3 : List.filter
      (fun i => !((f, l) :: rest).any (fun r => decide (r.1 ≤ i) && decide (i ≤ r.2)))
      (tokenRange (l + 1) last) =
      List.filter (fun i => !rest.any (fun r => decide (r.1 ≤ i) && decide (i ≤ r.2)))
        (tokenRange (l + 1) last) := by
    apply List.filter_congr
    intro i hi
    rw [mem_tokenRange] at hi
    simp only [List.any_cons]
    have : (decide (f ≤ i) && decide (i ≤ l)) = false := by
      simp only [Bool.and_eq_false_iff, decide_eq_false_iff_not]
      right; omega
    rw [this]
    simp
  rw [p1, p2, p3]
  simp

theorem iterNonChildTokens_eq_gapSpec {c : CodeT} :
    ∀ {rs : List (Nat × Nat)} {a last : Nat} {gs : List Nat},
      iterNonChildTokens c a last rs = some gs →
      childrenOrderedB a last rs = true → gs = gapSpec a last rs := by
  intro rs
  induction rs with
  | nil =>
      intro a last gs h _
      cases h
      rw [gapSpec_nil]
  | cons hd tl ih =>
      intro a last gs h hco
      obtain ⟨f, l⟩ := hd
      have hcb := hco
      unfold childrenOrderedB at hcb
      simp only [Bool.and_eq_true, decide_eq_true_eq] at hcb
      obtain ⟨⟨⟨⟨h1, h2⟩, h3⟩, h4⟩, h5⟩ := hcb
      unfold iterNonChildTokens at h
      rw [Option.bind_eq_bind] at h
      cases hp : prevToken c f with
      | none => rw [hp] at h; cases h
      | some p =>
          rw [hp] at h
          simp only [Option.some_bind] at h
          obtain ⟨hpos, rfl⟩ := prevToken_eq_some.mp hp
          by_cases hstop : last ≤ l
          · rw [if_pos hstop] at h
            cases h
            have hl : l = last := by omega
            subst hl
            have : tl = [] := childrenOrderedB_nil_of_lt h5 (by omega)
            subst this
            rw [gapSpec_cons hco]
            unfold gapSpec
            rw [tokenRange_nil (a := l + 1) (b := l) (by omega)]
            simp
          · rw [if_neg hstop] at h
            simp only [Option.bind_eq_bind] at h
            cases hn : nextToken c l with
            | none => rw [hn] at h; cases h
            | some t =>
                rw [hn] at h
                simp only [Option.some_bind] at h
                obtain ⟨hb, rfl⟩ := nextToken_eq_some.mp hn
                cases hm : iterNonChildTokens c (l + 1) last tl with
                | none => rw [hm] at h; cases h
                | some more =>
                    rw [hm] at h
                    simp only [Option.some_bind, Option.some.injEq] at h
                    subst h
                    rw [gapSpec_cons hco, ih hm h5]

theorem gapSpec_count {c : CodeT} :
    ∀ {rs : List (Nat × Nat)} {a last : Nat},
      childrenOrderedB a last rs = true → ∀ p,
        countP c p (gapSpec a last rs) +
            (rs.map (fun r => countP c p (tokenRange r.1 r.2))).sum =
          countP c p (tokenRange a last) := by
  intro rs
  induction rs with
  | nil =>
      intro a last _ p
      rw [gapSpec_nil]
      simp
  | cons hd tl ih =>
      intro a last hco p
      obtain ⟨f, l⟩ := hd
      have hcb := hco
      unfold childrenOrderedB at hcb
      simp only [Bool.and_eq_true, decide_eq_true_eq] at hcb
      obtain ⟨⟨⟨⟨h1, h2⟩, h3⟩, h4⟩, h5⟩ := hcb
      rw [gapSpec_cons hco]
      rw [tokenRange_split (m := f) (b := last) h1 h2 (by omega)]
      rw [tokenRange_split (m := l + 1) (b := last) (by omega) (by omega) (by omega)]
      rw [countP_append, countP_append, countP_append]
      have e1 : l + 1 - 1 = l := by omega
      rw [e1]
      have := ih h5 p
      simp only [List.map_cons, List.sum_cons]
      omega

/-! ### Bracket bookkeeping facts -/

/-- The closing-delimiter tokens. -/
def closersL : List (TokKind × String) := pairsList.map (fun pr => pr.2)

/-- The opening-delimiter tokens. -/
def openersL : List (TokKind × String) := pairsList.map (fun pr => pr.1)

theorem pairs_split {o cl : TokKind × String} (hp : (o, cl) ∈ pairsList) :
    (o = (TokKind.OP, "(") ∧ cl = (TokKind.OP, ")")) ∨
      (o = (TokKind.OP, "[") ∧ cl = (TokKind.OP, "]")) ∨
      (o = (TokKind.OP, "\x7b") ∧ cl = (TokKind.OP, "\x7d")) := by
  simp only [pairsList, List.mem_cons, List.not_mem_nil, or_false, Prod.mk.injEq] at hp
  tauto

theorem closers_split {x : TokKind × String} (hx : x ∈ closersL) :
    x = (TokKind.OP, ")") ∨ x = (TokKind.OP, "]") ∨ x = (TokKind.OP, "\x7d") := by
  simp only [closersL, pairsList, List.map_cons, List.map_nil, List.mem_cons,
    List.not_mem_nil, or_false] at hx
  tauto

theorem openers_split {x : TokKind × String} (hx : x ∈ openersL) :
    x = (TokKind.OP, "(") ∨ x = (TokKind.OP, "[") ∨ x = (TokKind.OP, "\x7b") := by
  simp only [openersL, pairsList, List.map_cons, List.map_nil, List.mem_cons,
    List.not_mem_nil, or_false] at hx
  tauto

theorem pair_opener_ne_closer {o cl x : TokKind × String} (hp : (o, cl) ∈ pairsList)
    (hx : x ∈ closersL) : o ≠ x := by
  rcases pairs_split hp with ⟨rfl, _⟩ | ⟨rfl, _⟩ | ⟨rfl, _⟩ <;>
    rcases closers_split hx with rfl | rfl | rfl <;> decide

theorem pair_closer_ne_opener {o cl x : TokKind × String} (hp : (o, cl) ∈ pairsList)
    (hx : x ∈ openersL) : cl ≠ x := by
  rcases pairs_split hp with ⟨_, rfl⟩ | ⟨_, rfl⟩ | ⟨_, rfl⟩ <;>
    rcases openers_split hx with rfl | rfl | rfl <;> decide

theorem mpl_mem_closers {ti x : TokKind × String} (h : matchingPairsLeft ti = some x) :
    x ∈ closersL := by
  unfold matchingPairsLeft at h
  split at h
  · cases h; decide
  · split at h
    · cases h; decide
    · split at h
      · cases h; decide
      · cases h

theorem mpl_mem_openers {ti x : TokKind × String} (h : matchingPairsLeft ti = some x) :
    ti ∈ openersL := by
  unfold matchingPairsLeft at h
  split at h
  · rename_i he; subst he; decide
  · split at h
    · rename_i he; subst he; decide
    · split at h
      · rename_i he; subst he; decide
      · cases h

theorem mpr_mem_openers {ti x : TokKind × String} (h : matchingPairsRight ti = some x) :
    x ∈ openersL := by
  unfold matchingPairsRight at h
  split at h
  · cases h; decide
  · split at h
    · cases h; decide
    · split at h
      · cases h; decide
      · cases h

theorem mpr_mem_closers {ti x : TokKind × String} (h : matchingPairsRight ti = some x) :
    ti ∈ closersL := by
  unfold matchingPairsRight at h
  split at h
  · rename_i he; subst he; decide
  · split at h
    · rename_i he; subst he; decide
    · split at h
      · rename_i he; subst he; decide
      · cases h

theorem mpl_ind {ti x o cl : TokKind × String} (h : matchingPairsLeft ti = some x)
    (hp : (o, cl) ∈ pairsList) :
    (if ti = o then (1 : Nat) else 0) = if x = cl then 1 else 0 := by
  unfold matchingPairsLeft at h
  split at h
  · rename_i he
    cases h
    subst he
    rcases pairs_split hp with ⟨rfl, rfl⟩ | ⟨rfl, rfl⟩ | ⟨rfl, rfl⟩ <;> decide
  · split at h
    · rename_i hne he
      cases h
      subst he
      rcases pairs_split hp with ⟨rfl, rfl⟩ | ⟨rfl, rfl⟩ | ⟨rfl, rfl⟩ <;> decide
    · split at h
      · rename_i hne1 hne2 he
        cases h
        subst he
        rcases pairs_split hp with ⟨rfl, rfl⟩ | ⟨rfl, rfl⟩ | ⟨rfl, rfl⟩ <;> decide
      · cases h

theorem mpr_ind {ti x o cl : TokKind × String} (h : matchingPairsRight ti = some x)
    (hp : (o, cl) ∈ pairsList) :
    (if ti = cl then (1 : Nat) else 0) = if x = o then 1 else 0 := by
  unfold matchingPairsRight at h
  split at h
  · rename_i he
    cases h
    subst he
    rcases pairs_split hp with ⟨rfl, rfl⟩ | ⟨rfl, rfl⟩ | ⟨rfl, rfl⟩ <;> decide
  · split at h
    · rename_i hne he
      cases h
      subst he
      rcases pairs_split hp with ⟨rfl, rfl⟩ | ⟨rfl, rfl⟩ | ⟨rfl, rfl⟩ <;> decide
    · split at h
      · rename_i hne1 hne2 he
        cases h
        subst he
        rcases pairs_split hp with ⟨rfl, rfl⟩ | ⟨rfl, rfl⟩ | ⟨rfl, rfl⟩ <;> decide
      · cases h

theorem mpl_none_ne {ti o cl : TokKind × String} (h : matchingPairsLeft ti = none)
    (hp : (o, cl) ∈ pairsList) : ti ≠ o := by
  intro he
  subst he
  rcases pairs_split hp with ⟨rfl, _⟩ | ⟨rfl, _⟩ | ⟨rfl, _⟩ <;> simp [matchingPairsLeft] at h

theorem mpr_none_ne {ti o cl : TokKind × String} (h : matchingPairsRight ti = none)
    (hp : (o, cl) ∈ pairsList) : ti ≠ cl := by
  intro he
  subst he
  rcases pairs_split hp with ⟨_, rfl⟩ | ⟨_, rfl⟩ | ⟨_, rfl⟩ <;> simp [matchingPairsRight] at h

theorem scanPush_typed {ti : TokKind × String}
    {st : List (TokKind × String) × List (TokKind × String)}
    (hr : ∀ e ∈ st.1, e ∈ closersL) (hl : ∀ e ∈ st.2, e ∈ openersL) :
    (∀ e ∈ (scanPush ti st).1, e ∈ closersL) ∧ (∀ e ∈ (scanPush ti st).2, e ∈ openersL) := by
  unfold scanPush
  cases hm : matchingPairsLeft ti with
  | some cl =>
      refine ⟨?_, hl⟩
      intro e he
      simp only [List.mem_cons] at he
      rcases he with rfl | he
      · exact mpl_mem_closers hm
      · exact hr e he
  | none =>
      cases hm2 : matchingPairsRight ti with
      | some op =>
          refine ⟨hr, ?_⟩
          intro e he
          simp only [List.mem_append, List.mem_singleton] at he
          rcases he with he | rfl
          · exact hl e he
          · exact mpr_mem_openers hm2
      | none => exact ⟨hr, hl⟩

theorem scanStep_typed {c : CodeT} {i : Nat}
    (st : List (TokKind × String) × List (TokKind × String))
    (hr : ∀ e ∈ st.1, e ∈ closersL) (hl : ∀ e ∈ st.2, e ∈ openersL) :
    (∀ e ∈ (scanStep c st i).1, e ∈ closersL) ∧ (∀ e ∈ (scanStep c st i).2, e ∈ openersL) := by
  obtain ⟨r, lft⟩ := st
  cases r with
  | nil => exact scanPush_typed hr hl
  | cons x rs =>
      dsimp only [scanStep]
      by_cases he : tokPair c i = x
      · rw [if_pos he]
        exact ⟨fun e hm => hr e (List.mem_cons_of_mem x hm), hl⟩
      · rw [if_neg he]
        exact scanPush_typed hr hl

theorem scanPush_account {o cl : TokKind × String} (hp : (o, cl) ∈ pairsList)
    (ti : TokKind × String) (r lft : List (TokKind × String)) :
    (if ti = o then (1 : Nat) else 0) + countEq cl r + countEq o (scanPush ti (r, lft)).2 =
      (if ti = cl then (1 : Nat) else 0) + countEq cl (scanPush ti (r, lft)).1 + countEq o lft := by
  unfold scanPush
  cases hm : matchingPairsLeft ti with
  | some x =>
      simp only
      rw [countEq_cons]
      have h1 := mpl_ind hm hp
      have h2 : ti ≠ cl := fun hh => (pair_closer_ne_opener hp (mpl_mem_openers hm)) hh.symm
      rw [if_neg h2]
      omega
  | none =>
      cases hm2 : matchingPairsRight ti with
      | some x =>
          simp only
          rw [countEq_append]
          have h1 := mpr_ind hm2 hp
          have h2 : ti ≠ o := mpl_none_ne hm hp
          rw [if_neg h2]
          have : countEq o [x] = if x = o then 1 else 0 := by
            rw [show ([x] : List (TokKind × String)) = x :: [] from rfl, countEq_cons, countEq_nil]
            omega
          omega
      | none =>
          simp only
          rw [if_neg (mpl_none_ne hm hp), if_neg (mpr_none_ne hm2 hp)]

theorem scanStep_account {c : CodeT} {o cl : TokKind × String} (hp : (o, cl) ∈ pairsList)
    (r lft : List (TokKind × String)) (hr : ∀ e ∈ r, e ∈ closersL) (i : Nat) :
    (if tokPair c i = o then (1 : Nat) else 0) + countEq cl r +
        countEq o (scanStep c (r, lft) i).2 =
      (if tokPair c i = cl then (1 : Nat) else 0) + countEq cl (scanStep c (r, lft) i).1 +
        countEq o lft := by
  cases r with
  | nil => exact scanPush_account hp (tokPair c i) [] lft
  | cons x rs =>
      dsimp only [scanStep]
      by_cases he : tokPair c i = x
      · rw [if_pos he]
        have hxc : x ∈ closersL := hr x (List.mem_cons_self x rs)
        have h2 : tokPair c i ≠ o := by
          rw [he]
          exact fun hh => (pair_opener_ne_closer hp hxc) hh.symm
        rw [if_neg h2, countEq_cons, he]
        simp only
        omega
      · rw [if_neg he]
        exact scanPush_account hp (tokPair c i) (x :: rs) lft

theorem scanFold_typed {c : CodeT} :
    ∀ (gs : List Nat) (r lft : List (TokKind × String)),
      (∀ e ∈ r, e ∈ closersL) → (∀ e ∈ lft, e ∈ openersL) →
      (∀ e ∈ (gs.foldl (scanStep c) (r, lft)).1, e ∈ closersL) ∧
        (∀ e ∈ (gs.foldl (scanStep c) (r, lft)).2, e ∈ openersL) := by
  intro gs
  induction gs with
  | nil => intro r lft hr hl; exact ⟨hr, hl⟩
  | cons i gs ih =>
      intro r lft hr hl
      rw [List.foldl_cons]
      obtain ⟨h1, h2⟩ := scanStep_typed (c := c) (i := i) (r, lft) hr hl
      have := ih (scanStep c (r, lft) i).1 (scanStep c (r, lft) i).2 h1 h2
      simpa using this

theorem scanStep_typed_r {c : CodeT} {i : Nat} {r lft : List (TokKind × String)}
    (hr : ∀ e ∈ r, e ∈ closersL) :
    ∀ e ∈ (scanStep c (r, lft) i).1, e ∈ closersL := by
  cases r with
  | nil =>
      dsimp only [scanStep, scanPush]
      cases hm : matchingPairsLeft (tokPair c i) with
      | some x =>
          intro e he
          simp only [List.mem_cons] at he
          rcases he with rfl | he
          · exact mpl_mem_closers hm
          · exact hr e he
      | none =>
          cases hm2 : matchingPairsRight (tokPair c i) with
          | some op => exact hr
          | none => exact hr
  | cons x rs =>
      dsimp only [scanStep]
      by_cases he : tokPair c i = x
      · rw [if_pos he]
        exact fun e hm => hr e (List.mem_cons_of_mem x hm)
      · rw [if_neg he]
        dsimp only [scanPush]
        cases hm : matchingPairsLeft (tokPair c i) with
        | some y =>
            intro e hee
            simp only [List.mem_cons] at hee
            rcases hee with rfl | rfl | hee
            · exact mpl_mem_closers hm
            · exact hr _ (List.mem_cons_self _ _)
            · exact hr e (List.mem_cons_of_mem _ hee)
        | none =>
            cases hm2 : matchingPairsRight (tokPair c i) with
            | some op => exact hr
            | none => exact hr

theorem scanFold_account {c : CodeT} {o cl : TokKind × String} (hp : (o, cl) ∈ pairsList) :
    ∀ (gs : List Nat) (r lft : List (TokKind × String)),
      (∀ e ∈ r, e ∈ closersL) →
      countP c o gs + countEq cl r + countEq o (gs.foldl (scanStep c) (r, lft)).2 =
        countP c cl gs + countEq cl (gs.foldl (scanStep c) (r, lft)).1 + countEq o lft := by
  intro gs
  induction gs with
  | nil =>
      intro r lft _
      simp [countP_nil]
  | cons i gs ih =>
      intro r lft hr
      rw [List.foldl_cons, countP_cons, countP_cons]
      have hstep := scanStep_account (c := c) hp r lft hr i
      have hr2 : ∀ e ∈ (scanStep c (r, lft) i).1, e ∈ closersL := scanStep_typed_r hr
      have hIH := ih (scanStep c (r, lft) i).1 (scanStep c (r, lft) i).2 hr2
      simp only [Prod.mk.eta] at hIH
      omega

/-! ### Bracket repair: widening and balance -/

theorem expand_some_elim {c : CodeT} {f l : Nat} {rs : List (Nat × Nat)} {f' l' : Nat}
    (h : expandToMatchingPairs c f l rs = some (f', l')) :
    ∃ gs, iterNonChildTokens c f l rs = some gs ∧
      extendRight c l (scanBrackets c gs).1 = some l' ∧
      extendLeft c f (scanBrackets c gs).2 = some f' := by
  unfold expandToMatchingPairs at h
  rw [Option.bind_eq_bind] at h
  cases hgs : iterNonChildTokens c f l rs with
  | none => rw [hgs] at h; cases h
  | some gs =>
      rw [hgs] at h
      simp only [Option.some_bind, Option.bind_eq_bind] at h
      cases hr : extendRight c l (scanBrackets c gs).1 with
      | none => rw [hr] at h; cases h
      | some lr =>
          rw [hr] at h
          simp only [Option.some_bind] at h
          cases hl : extendLeft c f (scanBrackets c gs).2 with
          | none => rw [hl] at h; cases h
          | some fl =>
              rw [hl] at h
              simp only [Option.some_bind, Option.some.injEq, Prod.mk.injEq] at h
              obtain ⟨rfl, rfl⟩ := h
              exact ⟨gs, rfl, hr, hl⟩

theorem expand_widen {c : CodeT} {f l : Nat} {rs : List (Nat × Nat)} {f' l' : Nat}
    (h : expandToMatchingPairs c f l rs = some (f', l')) : f' ≤ f ∧ l ≤ l' := by
  obtain ⟨gs, _, hr, hl⟩ := expand_some_elim h
  have h1 := (extendRight_some hr).1
  have h2 := (extendLeft_some hl).1
  omega

theorem tokenRange_split_left {a m b : Nat} (h1 : a ≤ m) (h2 : m ≤ b + 1) :
    tokenRange a b = List.range' a (m - a) ++ tokenRange m b := by
  unfold tokenRange
  have h := List.range'_append a (m - a) (b + 1 - m) 1
  have e1 : a + 1 * (m - a) = m := by omega
  have e2 : b + 1 - m + (m - a) = b + 1 - a := by omega
  rw [e1, e2] at h
  rw [← h]

theorem balancedB_iff {c : CodeT} {f l : Nat} :
    balancedB c f l = true ↔
      ∀ pr ∈ pairsList, countP c pr.1 (tokenRange f l) = countP c pr.2 (tokenRange f l) := by
  unfold balancedB
  simp only [List.all_eq_true, beq_iff_eq]

theorem expand_balance {c : CodeT} {f l : Nat} {rs : List (Nat × Nat)} {f' l' : Nat}
    (h : expandToMatchingPairs c f l rs = some (f', l'))
    (hco : childrenOrderedB f l rs = true)
    (hch : ∀ r ∈ rs, balancedB c r.1 r.2 = true) :
    balancedB c f' l' = true := by
  obtain ⟨gs, hgs, hr, hl⟩ := expand_some_elim h
  have hgseq := iterNonChildTokens_eq_gapSpec hgs hco
  subst hgseq
  obtain ⟨hr1, hrne, hr3⟩ := extendRight_some hr
  obtain ⟨hl1, hl3⟩ := extendLeft_some hl
  rw [balancedB_iff]
  intro pr hpr
  obtain ⟨o, cl⟩ := pr
  simp only
  have htyped : (∀ e ∈ (scanBrackets c (gapSpec f l rs)).1, e ∈ closersL) ∧
      (∀ e ∈ (scanBrackets c (gapSpec f l rs)).2, e ∈ openersL) :=
    scanFold_typed (gapSpec f l rs) [] [] (fun e he => absurd he (by simp))
      (fun e he => absurd he (by simp))
  have haccount : countP c o (gapSpec f l rs) + countEq cl [] +
      countEq o (scanBrackets c (gapSpec f l rs)).2 =
      countP c cl (gapSpec f l rs) + countEq cl (scanBrackets c (gapSpec f l rs)).1 +
      countEq o ([] : List (TokKind × String)) :=
    scanFold_account hpr (gapSpec f l rs) [] [] (fun e he => absurd he (by simp))
  simp only [countEq_nil, Nat.add_zero] at haccount
  have hcount_o := gapSpec_count (c := c) hco o
  have hcount_cl := gapSpec_count (c := c) hco cl
  have hro : countEq o (scanBrackets c (gapSpec f l rs)).1 = 0 := by
    apply countEq_eq_zero
    intro x hx
    exact fun hxo => (pair_opener_ne_closer hpr (htyped.1 x hx)) hxo.symm
  have hlcl : countEq cl (scanBrackets c (gapSpec f l rs)).2 = 0 := by
    apply countEq_eq_zero
    intro x hx
    exact fun hxc => (pair_closer_ne_opener hpr (htyped.2 x hx)) hxc.symm
  have hchsum :
      (rs.map (fun r => countP c o (tokenRange r.1 r.2))).sum =
        (rs.map (fun r => countP c cl (tokenRange r.1 r.2))).sum := by
    have hmaps : rs.map (fun r => countP c o (tokenRange r.1 r.2)) =
        rs.map (fun r => countP c cl (tokenRange r.1 r.2)) := by
      apply List.map_congr_left
      intro r hrr
      have := (balancedB_iff.mp (hch r hrr)) (o, cl) hpr
      simpa using this
    rw [hmaps]
  by_cases hfl : f ≤ l
  · have hsplit1 : tokenRange f' l' = List.range' f' (f - f') ++ tokenRange f l' :=
      tokenRange_split_left (by omega) (by omega)
    have hsplit2 : tokenRange f l' = tokenRange f l ++ tokenRange (l + 1) l' := by
      have := tokenRange_split (a := f) (m := l + 1) (b := l') (by omega) (by omega) (by omega)
      simpa using this
    rw [hsplit1, hsplit2]
    simp only [countP_append]
    have hflen : f - f' = (scanBrackets c (gapSpec f l rs)).2.length := by omega
    rw [hflen]
    have hlo := hl3 o
    have hlcl2 := hl3 cl
    have hro2 := hr3 o
    have hrcl := hr3 cl
    omega
  · have hrs : rs = [] := childrenOrderedB_nil_of_lt hco (by omega)
    subst hrs
    have hgs0 : gapSpec f l ([] : List (Nat × Nat)) = [] := by
      rw [gapSpec_nil]
      exact tokenRange_nil (by omega)
    rw [hgs0] at hr1 hl1
    have hsb : scanBrackets c ([] : List Nat) = ([], []) := rfl
    rw [hsb] at hr1 hl1
    simp only [List.length_nil, Nat.add_zero] at hr1 hl1
    subst hr1
    have hf : f' = f := by omega
    subst hf
    rw [tokenRange_nil (by omega)]
    rfl

/-! ### The child-combining folds -/

/-- One step of the `first`-combining fold. -/
def stepMin (f : Option Nat) (x : Nat) : Option Nat :=
  match f with
  | none => some x
  | some fi => if x < fi then some x else some fi

/-- One step of the `last`-combining fold. -/
def stepMax (f : Option Nat) (x : Nat) : Option Nat :=
  match f with
  | none => some x
  | some li => if li < x then some x else some li

theorem combFirst_eq_foldl {tok : Option Nat} {ms : List Marked} :
    combFirst tok ms = (ms.map Marked.first).foldl stepMin tok := by
  unfold combFirst
  rw [List.foldl_map]
  rfl

theorem combLast_eq_foldl {ms : List Marked} :
    combLast ms = (ms.map Marked.last).foldl stepMax none := by
  unfold combLast
  rw [List.foldl_map]
  rfl

theorem stepMin_isSome (acc : Option Nat) (x : Nat) : ∃ w, stepMin acc x = some w := by
  cases acc with
  | none => exact ⟨x, rfl⟩
  | some t =>
      dsimp only [stepMin]
      by_cases hxt : x < t
      · rw [if_pos hxt]; exact ⟨x, rfl⟩
      · rw [if_neg hxt]; exact ⟨t, rfl⟩

theorem stepMax_isSome (acc : Option Nat) (x : Nat) : ∃ w, stepMax acc x = some w := by
  cases acc with
  | none => exact ⟨x, rfl⟩
  | some t =>
      dsimp only [stepMax]
      by_cases hxt : t < x
      · rw [if_pos hxt]; exact ⟨x, rfl⟩
      · rw [if_neg hxt]; exact ⟨t, rfl⟩

theorem foldl_stepMin_none_iff :
    ∀ {xs : List Nat} {acc : Option Nat}, xs.foldl stepMin acc = none ↔ acc = none ∧ xs = [] := by
  intro xs
  induction xs with
  | nil => intro acc; simp
  | cons x xs ih =>
      intro acc
      rw [List.foldl_cons]
      constructor
      · intro h
        obtain ⟨w, hw⟩ := stepMin_isSome acc x
        rw [hw] at h
        obtain ⟨h1, _⟩ := ih.mp h
        cases h1
      · rintro ⟨_, h2⟩
        cases h2

theorem foldl_stepMax_none_iff :
    ∀ {xs : List Nat} {acc : Option Nat}, xs.foldl stepMax acc = none ↔ acc = none ∧ xs = [] := by
  intro xs
  induction xs with
  | nil => intro acc; simp
  | cons x xs ih =>
      intro acc
      rw [List.foldl_cons]
      constructor
      · intro h
        obtain ⟨w, hw⟩ := stepMax_isSome acc x
        rw [hw] at h
        obtain ⟨h1, _⟩ := ih.mp h
        cases h1
      · rintro ⟨_, h2⟩
        cases h2

theorem foldl_stepMin_le :
    ∀ {xs : List Nat} {acc : Option Nat} {v : Nat}, xs.foldl stepMin acc = some v →
      (∀ x ∈ xs, v ≤ x) ∧ (∀ t, acc = some t → v ≤ t) ∧ (acc = some v ∨ v ∈ xs) := by
  intro xs
  induction xs with
  | nil =>
      intro acc v h
      cases h
      exact ⟨fun x hx => absurd hx (by simp), fun t ht => by cases ht; exact Nat.le_refl _,
        Or.inl rfl⟩
  | cons x xs ih =>
      intro acc v h
      rw [List.foldl_cons] at h
      obtain ⟨h1, h2, h3⟩ := ih h
      cases acc with
      | none =>
          have hs : stepMin none x = some x := rfl
          rw [hs] at h2 h3
          have hvx : v ≤ x := h2 x rfl
          refine ⟨?_, ?_, ?_⟩
          · intro y hy
            rcases List.mem_cons.mp hy with rfl | hy'
            · exact hvx
            · exact h1 y hy'
          · intro t ht
            cases ht
          · rcases h3 with he | hm
            · cases he; exact Or.inr (List.mem_cons_self _ _)
            · exact Or.inr (List.mem_cons_of_mem _ hm)
      | some t =>
          by_cases hxt : x < t
          · have hs : stepMin (some t) x = some x := by
              dsimp only [stepMin]
              rw [if_pos hxt]
            rw [hs] at h2 h3
            have hvx : v ≤ x := h2 x rfl
            refine ⟨?_, fun u hu => ?_, ?_⟩
            · intro y hy
              rcases List.mem_cons.mp hy with rfl | hy'
              · exact hvx
              · exact h1 y hy'
            · cases hu
              omega
            · rcases h3 with he | hm
              · cases he; exact Or.inr (List.mem_cons_self _ _)
              · exact Or.inr (List.mem_cons_of_mem _ hm)
          · have hs : stepMin (some t) x = some t := by
              dsimp only [stepMin]
              rw [if_neg hxt]
            rw [hs] at h2 h3
            have hvt : v ≤ t := h2 t rfl
            refine ⟨?_, fun u hu => ?_, ?_⟩
            · intro y hy
              rcases List.mem_cons.mp hy with rfl | hy'
              · omega
              · exact h1 y hy'
            · cases hu
              exact hvt
            · rcases h3 with he | hm
              · cases he; exact Or.inl rfl
              · exact Or.inr (List.mem_cons_of_mem _ hm)

theorem foldl_stepMax_ge :
    ∀ {xs : List Nat} {acc : Option Nat} {v : Nat}, xs.foldl stepMax acc = some v →
      (∀ x ∈ xs, x ≤ v) ∧ (∀ t, acc = some t → t ≤ v) ∧ (acc = some v ∨ v ∈ xs) := by
  intro xs
  induction xs with
  | nil =>
      intro acc v h
      cases h
      exact ⟨fun x hx => absurd hx (by simp), fun t ht => by cases ht; exact Nat.le_refl _,
        Or.inl rfl⟩
  | cons x xs ih =>
      intro acc v h
      rw [List.foldl_cons] at h
      obtain ⟨h1, h2, h3⟩ := ih h
      cases acc with
      | none =>
          have hs : stepMax none x = some x := rfl
          rw [hs] at h2 h3
          have hvx : x ≤ v := h2 x rfl
          refine ⟨?_, ?_, ?_⟩
          · intro y hy
            rcases List.mem_cons.mp hy with rfl | hy'
            · exact hvx
            · exact h1 y hy'
          · intro t ht
            cases ht
          · rcases h3 with he | hm
            · cases he; exact Or.inr (List.mem_cons_self _ _)
            · exact Or.inr (List.mem_cons_of_mem _ hm)
      | some t =>
          by_cases hxt : t < x
          · have hs : stepMax (some t) x = some x := by
              dsimp only [stepMax]
              rw [if_pos hxt]
            rw [hs] at h2 h3
            have hvx : x ≤ v := h2 x rfl
            refine ⟨?_, fun u hu => ?_, ?_⟩
            · intro y hy
              rcases List.mem_cons.mp hy with rfl | hy'
              · exact hvx
              · exact h1 y hy'
            · cases hu
              omega
            · rcases h3 with he | hm
              · cases he; exact Or.inr (List.mem_cons_self _ _)
              · exact Or.inr (List.mem_cons_of_mem _ hm)
          · have hs : stepMax (some t) x = some t := by
              dsimp only [stepMax]
              rw [if_neg hxt]
            rw [hs] at h2 h3
            have hvt : t ≤ v := h2 t rfl
            refine ⟨?_, fun u hu => ?_, ?_⟩
            · intro y hy
              rcases List.mem_cons.mp hy with rfl | hy'
              · omega
              · exact h1 y hy'
            · cases hu
              exact hvt
            · rcases h3 with he | hm
              · cases he; exact Or.inl rfl
              · exact Or.inr (List.mem_cons_of_mem _ hm)

theorem combFirst_none_iff {tok : Option Nat} {ms : List Marked} :
    combFirst tok ms = none ↔ tok = none ∧ ms = [] := by
  rw [combFirst_eq_foldl, foldl_stepMin_none_iff]
  simp

theorem combLast_none_iff {ms : List Marked} : combLast ms = none ↔ ms = [] := by
  rw [combLast_eq_foldl, foldl_stepMax_none_iff]
  simp

theorem combFirst_le {tok : Option Nat} {ms : List Marked} {v : Nat}
    (h : combFirst tok ms = some v) :
    (∀ m ∈ ms, v ≤ m.first) ∧ (∀ t, tok = some t → v ≤ t) ∧
      (tok = some v ∨ v ∈ ms.map Marked.first) := by
  rw [combFirst_eq_foldl] at h
  obtain ⟨h1, h2, h3⟩ := foldl_stepMin_le h
  exact ⟨fun m hm => h1 _ (List.mem_map_of_mem _ hm), h2, h3⟩

theorem combLast_ge {ms : List Marked} {v : Nat} (h : combLast ms = some v) :
    (∀ m ∈ ms, m.last ≤ v) ∧ v ∈ ms.map Marked.last := by
  rw [combLast_eq_foldl] at h
  obtain ⟨h1, h2, h3⟩ := foldl_stepMax_ge h
  refine ⟨fun m hm => h1 _ (List.mem_map_of_mem _ hm), ?_⟩
  rcases h3 with he | hm
  · cases he
  · exact hm

theorem foldl_stepMin_perm {acc : Option Nat} {xs ys : List Nat} (hp : xs.Perm ys) :
    xs.foldl stepMin acc = ys.foldl stepMin acc := by
  cases h1 : xs.foldl stepMin acc with
  | none =>
      obtain ⟨ha, hx⟩ := foldl_stepMin_none_iff.mp h1
      subst ha
      subst hx
      have hy : ys = [] := hp.symm.eq_nil
      subst hy
      rfl
  | some v =>
      cases h2 : ys.foldl stepMin acc with
      | none =>
          obtain ⟨ha, hy⟩ := foldl_stepMin_none_iff.mp h2
          subst ha
          subst hy
          have hx : xs = [] := hp.eq_nil
          subst hx
          cases h1
      | some w =>
          obtain ⟨h1a, h1b, h1c⟩ := foldl_stepMin_le h1
          obtain ⟨h2a, h2b, h2c⟩ := foldl_stepMin_le h2
          have hvw : v ≤ w := by
            rcases h2c with he | hm
            · exact h1b w he
            · exact h1a w (hp.mem_iff.mpr hm)
          have hwv : w ≤ v := by
            rcases h1c with he | hm
            · exact h2b v he
            · exact h2a v (hp.mem_iff.mp hm)
          rw [Nat.le_antisymm hvw hwv]

theorem foldl_stepMax_perm {acc : Option Nat} {xs ys : List Nat} (hp : xs.Perm ys) :
    xs.foldl stepMax acc = ys.foldl stepMax acc := by
  cases h1 : xs.foldl stepMax acc with
  | none =>
      obtain ⟨ha, hx⟩ := foldl_stepMax_none_iff.mp h1
      subst ha
      subst hx
      have hy : ys = [] := hp.symm.eq_nil
      subst hy
      rfl
  | some v =>
      cases h2 : ys.foldl stepMax acc with
      | none =>
          obtain ⟨ha, hy⟩ := foldl_stepMax_none_iff.mp h2
          subst ha
          subst hy
          have hx : xs = [] := hp.eq_nil
          subst hx
          cases h1
      | some w =>
          obtain ⟨h1a, h1b, h1c⟩ := foldl_stepMax_ge h1
          obtain ⟨h2a, h2b, h2c⟩ := foldl_stepMax_ge h2
          have hvw : w ≤ v := by
            rcases h2c with he | hm
            · exact h1b w he
            · exact h1a w (hp.mem_iff.mpr hm)
          have hwv : v ≤ w := by
            rcases h1c with he | hm
            · exact h2b v he
            · exact h2a v (hp.mem_iff.mp hm)
          rw [Nat.le_antisymm hwv hvw]

theorem combFirst_perm {tok : Option Nat} {ms ms' : List Marked} (hp : ms.Perm ms') :
    combFirst tok ms = combFirst tok ms' := by
  rw [combFirst_eq_foldl, combFirst_eq_foldl]
  exact foldl_stepMin_perm (hp.map Marked.first)

theorem combLast_perm {ms ms' : List Marked} (hp : ms.Perm ms') :
    combLast ms = combLast ms' := by
  rw [combLast_eq_foldl, combLast_eq_foldl]
  exact foldl_stepMax_perm (hp.map Marked.last)

/-! ### The statement-line extension and the preliminary range -/

theorem cleanTokB_kinds {c : CodeT} {i : Nat} (h : cleanTokB c i = true) :
    (tokAt c i).kind ≠ TokKind.NEWLINE ∧ (tokAt c i).kind ≠ TokKind.ENDMARKER := by
  unfold cleanTokB at h
  simp only [Bool.and_eq_true, Bool.not_eq_true', beq_eq_false_iff_ne] at h
  exact h

theorem findLastInLine_ge {c : CodeT} {s r : Nat} (hclean : cleanTokB c s = true)
    (h : findLastInLine c s = some r) : s ≤ r := by
  obtain ⟨hnl, hem⟩ := cleanTokB_kinds hclean
  unfold findLastInLine at h
  rw [Option.bind_eq_bind] at h
  cases hf : findTokenFwd c s TokKind.NEWLINE none with
  | some nl =>
      rw [hf] at h
      simp only [Option.some_bind] at h
      obtain ⟨hs, _, hm, _⟩ := findTokenFwd_some hf
      have hne : nl ≠ s := by
        intro he
        subst he
        unfold matchTokB at hm
        simp only [Bool.and_eq_true, beq_iff_eq] at hm
        exact hnl hm.1
      obtain ⟨hpos, rfl⟩ := prevToken_eq_some.mp h
      omega
  | none =>
      rw [hf] at h
      simp only [Option.none_bind] at h
      cases hf2 : findTokenFwd c s TokKind.ENDMARKER none with
      | none => rw [hf2] at h; cases h
      | some em =>
          rw [hf2] at h
          simp only [Option.some_bind] at h
          obtain ⟨hs, _, hm, _⟩ := findTokenFwd_some hf2
          have hne : em ≠ s := by
            intro he
            subst he
            unfold matchTokB at hm
            simp only [Bool.and_eq_true, beq_iff_eq] at hm
            exact hem hm.1
          obtain ⟨hpos, rfl⟩ := prevToken_eq_some.mp h
          omega

theorem stmtLast_ge {c : CodeT} {k : NodeKind} {s r : Nat} (hclean : cleanTokB c s = true)
    (h : stmtLast c k s = some r) : s ≤ r := by
  unfold stmtLast at h
  split at h
  · exact findLastInLine_ge hclean h
  · cases h
    exact Nat.le_refl _

theorem prelimRange_bounds {c : CodeT} {pt tok : Option Nat} {k : NodeKind}
    {ms : List Marked} {f1 l2 : Nat}
    (h : prelimRange c pt tok k ms = some (f1, l2))
    (hclean : ∀ m ∈ ms, cleanTokB c m.last = true) :
    ∀ m ∈ ms, f1 ≤ m.first ∧ m.last ≤ l2 := by
  intro m hm
  unfold prelimRange at h
  rw [Option.bind_eq_bind] at h
  cases hcf : (combFirst tok ms <|> pt) with
  | none => rw [hcf] at h; cases h
  | some fv =>
      rw [hcf] at h
      simp only [Option.some_bind, Option.bind_eq_bind] at h
      cases hsl : stmtLast c k ((combLast ms).getD fv) with
      | none => rw [hsl] at h; cases h
      | some lv =>
          rw [hsl] at h
          simp only [Option.some_bind, Option.some.injEq, Prod.mk.injEq] at h
          obtain ⟨rfl, rfl⟩ := h
          have hmsne : ms ≠ [] := by
            intro he
            subst he
            cases hm
          have hcfirst : combFirst tok ms = some fv := by
            cases hcfv : combFirst tok ms with
            | none =>
                exact absurd (combFirst_none_iff.mp hcfv).2 hmsne
            | some v =>
                rw [hcfv] at hcf
                simp only [Option.some_orElse] at hcf
                exact hcf
          cases hclv : combLast ms with
          | none => exact absurd (combLast_none_iff.mp hclv) hmsne
          | some w =>
              rw [hclv] at hsl
              simp only [Option.getD_some] at hsl
              obtain ⟨hw1, hw2⟩ := combLast_ge hclv
              have hwclean : cleanTokB c w = true := by
                rcases List.mem_map.mp hw2 with ⟨m', hm', he⟩
                subst he
                exact hclean m' hm'
              have hwle := stmtLast_ge hwclean hsl
              exact ⟨(combFirst_le hcfirst).1 m hm, by have := hw1 m hm; omega⟩

/-! ### Chained child ranges -/

theorem chainB_elim :
    ∀ {rs : List (Nat × Nat)} {f l : Nat}, chainB ((f, l) :: rs) = true →
      0 < f ∧ f ≤ l ∧ chainB rs = true ∧ ∀ r ∈ rs, l + 1 ≤ r.1 := by
  intro rs
  induction rs with
  | nil =>
      intro f l h
      dsimp only [chainB] at h
      simp only [Bool.and_eq_true, decide_eq_true_eq, Bool.and_true] at h
      exact ⟨h.1, h.2, rfl, fun r hr => absurd hr (by simp)⟩
  | cons hd tl ih =>
      intro f l h
      obtain ⟨f', l'⟩ := hd
      dsimp only [chainB] at h
      simp only [Bool.and_eq_true, decide_eq_true_eq] at h
      obtain ⟨⟨⟨h1, h2⟩, h3⟩, h4⟩ := h
      have hch : chainB ((f', l') :: tl) = true := by
        dsimp only [chainB]
        simp only [Bool.and_eq_true, decide_eq_true_eq]
        exact h4
      obtain ⟨h5, h6, h7, h8⟩ := ih hch
      refine ⟨h1, h2, hch, ?_⟩
      intro r hr
      rcases List.mem_cons.mp hr with rfl | hr'
      · exact h3
      · have := h8 r hr'
        omega

theorem chain_to_ordered :
    ∀ {rs : List (Nat × Nat)} {a last : Nat}, chainB rs = true →
      (∀ r ∈ rs, a ≤ r.1) → (∀ r ∈ rs, r.2 ≤ last) → childrenOrderedB a last rs = true := by
  intro rs
  induction rs with
  | nil => intro a last _ _ _; rfl
  | cons hd tl ih =>
      intro a last h ha hl
      obtain ⟨f, l⟩ := hd
      obtain ⟨h1, h2, h3, h4⟩ := chainB_elim h
      unfold childrenOrderedB
      simp only [Bool.and_eq_true, decide_eq_true_eq]
      refine ⟨⟨⟨⟨h1, ha _ (List.mem_cons_self _ _)⟩, h2⟩, hl _ (List.mem_cons_self _ _)⟩, ?_⟩
      exact ih h3 (fun r hr => h4 r hr) (fun r hr => hl r (List.mem_cons_of_mem _ hr))

/-! ### Per-node processing: containment and balance -/

theorem visitAfterChildren_elim {c : CodeT} {pt tok : Option Nat} {k : NodeKind}
    {ms : List Marked} {m : Marked} (h : visitAfterChildren c pt tok k ms = some m) :
    ∃ f1 l2 f2 l2x nf nl f3 l3,
      prelimRange c pt tok k ms = some (f1, l2) ∧
      expandToMatchingPairs c f1 l2 (rangesOf ms) = some (f2, l2x) ∧
      visitMethod c k f2 l2x = some (nf, nl) ∧
      (((nf, nl) = (f2, l2x) ∧ f3 = f2 ∧ l3 = l2x) ∨
        ((nf, nl) ≠ (f2, l2x) ∧ expandToMatchingPairs c nf nl (rangesOf ms) = some (f3, l3))) ∧
      m = Marked.mk k f3 l3 ms := by
  unfold visitAfterChildren at h
  rw [Option.bind_eq_bind] at h
  cases hp : prelimRange c pt tok k ms with
  | none => rw [hp] at h; cases h
  | some pr =>
      rw [hp] at h
      obtain ⟨f1, l2⟩ := pr
      simp only [Option.some_bind, Option.bind_eq_bind] at h
      cases he : expandToMatchingPairs c f1 l2 (rangesOf ms) with
      | none => rw [he] at h; cases h
      | some e2 =>
          rw [he] at h
          obtain ⟨f2, l2x⟩ := e2
          simp only [Option.some_bind, Option.bind_eq_bind] at h
          cases hv : visitMethod c k f2 l2x with
          | none => rw [hv] at h; cases h
          | some nn =>
              rw [hv] at h
              obtain ⟨nf, nl⟩ := nn
              simp only [Option.some_bind, Option.bind_eq_bind] at h
              by_cases heq : (nf, nl) = (f2, l2x)
              · rw [if_pos heq] at h
                simp only [Option.some_bind, Option.some.injEq] at h
                exact ⟨f1, l2, f2, l2x, nf, nl, f2, l2x, rfl, he, hv,
                  Or.inl ⟨heq, rfl, rfl⟩, h.symm⟩
              · rw [if_neg heq] at h
                cases he2 : expandToMatchingPairs c nf nl (rangesOf ms) with
                | none => rw [he2] at h; cases h
                | some e3 =>
                    rw [he2] at h
                    obtain ⟨f3, l3⟩ := e3
                    simp only [Option.some_bind, Option.some.injEq] at h
                    exact ⟨f1, l2, f2, l2x, nf, nl, f3, l3, rfl, he, hv,
                      Or.inr ⟨heq, he2⟩, h.symm⟩

theorem Marked_first_mk {k : NodeKind} {f l : Nat} {cs : List Marked} :
    (Marked.mk k f l cs).first = f := rfl

theorem Marked_last_mk {k : NodeKind} {f l : Nat} {cs : List Marked} :
    (Marked.mk k f l cs).last = l := rfl

theorem Marked_kind_mk {k : NodeKind} {f l : Nat} {cs : List Marked} :
    (Marked.mk k f l cs).kind = k := rfl

theorem Marked_children_mk {k : NodeKind} {f l : Nat} {cs : List Marked} :
    (Marked.mk k f l cs).children = cs := rfl

theorem visitAfterChildren_contained {c : CodeT} {pt tok : Option Nat} {k : NodeKind}
    {ms : List Marked} {m : Marked} (h : visitAfterChildren c pt tok k ms = some m)
    (hclean : ∀ m' ∈ ms, cleanTokB c m'.last = true) :
    m.kind = k ∧ m.children = ms ∧ ∀ m' ∈ ms, m.first ≤ m'.first ∧ m'.last ≤ m.last := by
  obtain ⟨f1, l2, f2, l2x, nf, nl, f3, l3, hp, he, hv, hbr, hm⟩ := visitAfterChildren_elim h
  subst hm
  have hpre := prelimRange_bounds hp hclean
  have hw1 := expand_widen he
  have hw2 := visitMethod_widen hv
  refine ⟨rfl, rfl, ?_⟩
  intro m' hm'
  obtain ⟨hb1, hb2⟩ := hpre m' hm'
  rcases hbr with ⟨_, rfl, rfl⟩ | ⟨_, he2⟩
  · obtain ⟨hw1a, hw1b⟩ := hw1
    exact ⟨by rw [Marked_first_mk]; omega, by rw [Marked_last_mk]; omega⟩
  · obtain ⟨hw1a, hw1b⟩ := hw1
    obtain ⟨hw2a, hw2b⟩ := hw2
    obtain ⟨hw3a, hw3b⟩ := expand_widen he2
    exact ⟨by rw [Marked_first_mk]; omega, by rw [Marked_last_mk]; omega⟩

theorem visitAfterChildren_balanced {c : CodeT} {pt tok : Option Nat} {k : NodeKind}
    {ms : List Marked} {m : Marked} (h : visitAfterChildren c pt tok k ms = some m)
    (hclean : ∀ m' ∈ ms, cleanTokB c m'.last = true)
    (hchain : chainB (rangesOf ms) = true)
    (hbal : ∀ r ∈ rangesOf ms, balancedB c r.1 r.2 = true) :
    balancedB c m.first m.last = true := by
  obtain ⟨f1, l2, f2, l2x, nf, nl, f3, l3, hp, he, hv, hbr, hm⟩ := visitAfterChildren_elim h
  subst hm
  have hpre := prelimRange_bounds hp hclean
  have hord1 : childrenOrderedB f1 l2 (rangesOf ms) = true := by
    apply chain_to_ordered hchain
    · intro r hr
      rcases List.mem_map.mp hr with ⟨m', hm', he'⟩
      subst he'
      exact (hpre m' hm').1
    · intro r hr
      rcases List.mem_map.mp hr with ⟨m', hm', he'⟩
      subst he'
      exact (hpre m' hm').2
  have hbal2 := expand_balance he hord1 hbal
  have hw1 := expand_widen he
  rcases hbr with ⟨_, rfl, rfl⟩ | ⟨_, he2⟩
  · rw [Marked_first_mk, Marked_last_mk]
    exact hbal2
  · have hw2 := visitMethod_widen hv
    have hord2 : childrenOrderedB nf nl (rangesOf ms) = true := by
      apply chain_to_ordered hchain
      · intro r hr
        rcases List.mem_map.mp hr with ⟨m', hm', he'⟩
        subst he'
        have := (hpre m' hm').1
        omega
      · intro r hr
        rcases List.mem_map.mp hr with ⟨m', hm', he'⟩
        subst he'
        have := (hpre m' hm').2
        omega
    have hbal3 := expand_balance he2 hord2 hbal
    rw [Marked_first_mk, Marked_last_mk]
    exact hbal3

/-! ### Tree-level reasoning -/

theorem Node.strongInd (P : Node → Prop)
    (ind : ∀ k a mks cs, (∀ n ∈ cs, P n) → P (Node.mk k a mks cs)) : ∀ n, P n
  | .mk k a mks cs => ind k a mks cs (fun n hn => Node.strongInd P ind n)
termination_by n => sizeOf n
decreasing_by
  have hlt := List.sizeOf_lt_of_mem hn
  simp only [Node.mk.sizeOf_spec]
  omega

theorem markNode_elim {c : CodeT} {pt : Option Nat} {k : NodeKind} {a : Option Nat}
    {mks : Option (Nat × Nat)} {cs : List Node} {m : Marked}
    (h : markNode c pt (Node.mk k a mks cs) = some m) :
    ∃ ms, markList c (a <|> pt) cs = some ms ∧ visitAfterChildren c pt a k ms = some m := by
  unfold markNode at h
  rw [Option.bind_eq_bind] at h
  cases hms : markList c (a <|> pt) cs with
  | none => rw [hms] at h; cases h
  | some ms =>
      rw [hms] at h
      simp only [Option.some_bind] at h
      exact ⟨ms, rfl, h⟩

theorem markList_elim {c : CodeT} {pt : Option Nat} :
    ∀ {ns : List Node} {ms : List Marked}, markList c pt ns = some ms →
      List.Forall₂ (fun n m => markNode c pt n = some m) ns ms := by
  intro ns
  induction ns with
  | nil =>
      intro ms h
      cases h
      exact List.Forall₂.nil
  | cons n ns ih =>
      intro ms h
      unfold markList at h
      rw [Option.bind_eq_bind] at h
      cases hm : markNode c pt n with
      | none => rw [hm] at h; cases h
      | some m =>
          rw [hm] at h
          simp only [Option.some_bind, Option.bind_eq_bind] at h
          cases hms : markList c pt ns with
          | none => rw [hms] at h; cases h
          | some ms' =>
              rw [hms] at h
              simp only [Option.some_bind, Option.some.injEq] at h
              subst h
              exact List.Forall₂.cons hm (ih hms)

theorem cleanTreeB_elim {c : CodeT} {m : Marked} (h : cleanTreeB c m = true) :
    cleanTokB c m.last = true ∧ cleanTreeList c m.children = true := by
  obtain ⟨k, f, l, cs⟩ := m
  dsimp only [cleanTreeB] at h
  simp only [Bool.and_eq_true] at h
  exact h

theorem cleanTreeList_mem {c : CodeT} :
    ∀ {ms : List Marked}, cleanTreeList c ms = true → ∀ m ∈ ms, cleanTreeB c m = true := by
  intro ms
  induction ms with
  | nil => intro _ m hm; cases hm
  | cons x xs ih =>
      intro h m hm
      dsimp only [cleanTreeList] at h
      simp only [Bool.and_eq_true] at h
      rcases List.mem_cons.mp hm with rfl | hm'
      · exact h.1
      · exact ih h.2 m hm'

theorem containedTreeList_intro {ms : List Marked}
    (h : ∀ m ∈ ms, containedTreeB m = true) : containedTreeList ms = true := by
  induction ms with
  | nil => rfl
  | cons x xs ih =>
      dsimp only [containedTreeList]
      simp only [Bool.and_eq_true]
      exact ⟨h x (List.mem_cons_self _ _), ih (fun m hm => h m (List.mem_cons_of_mem _ hm))⟩

theorem wfTreeB_elim {c : CodeT} {m : Marked} (h : wfTreeB c m = true) :
    cleanTokB c m.last = true ∧ chainB (rangesOf m.children) = true ∧
      wfTreeList c m.children = true := by
  obtain ⟨k, f, l, cs⟩ := m
  dsimp only [wfTreeB] at h
  simp only [Bool.and_eq_true] at h
  exact ⟨h.1.1, h.1.2, h.2⟩

theorem wfTreeList_mem {c : CodeT} :
    ∀ {ms : List Marked}, wfTreeList c ms = true → ∀ m ∈ ms, wfTreeB c m = true := by
  intro ms
  induction ms with
  | nil => intro _ m hm; cases hm
  | cons x xs ih =>
      intro h m hm
      dsimp only [wfTreeList] at h
      simp only [Bool.and_eq_true] at h
      rcases List.mem_cons.mp hm with rfl | hm'
      · exact h.1
      · exact ih h.2 m hm'

theorem balancedTreeList_intro {c : CodeT} {ms : List Marked}
    (h : ∀ m ∈ ms, balancedTreeB c m = true) : balancedTreeList c ms = true := by
  induction ms with
  | nil => rfl
  | cons x xs ih =>
      dsimp only [balancedTreeList]
      simp only [Bool.and_eq_true]
      exact ⟨h x (List.mem_cons_self _ _), ih (fun m hm => h m (List.mem_cons_of_mem _ hm))⟩

theorem balancedTreeB_elim {c : CodeT} {m : Marked} (h : balancedTreeB c m = true) :
    balancedB c m.first m.last = true := by
  obtain ⟨k, f, l, cs⟩ := m
  dsimp only [balancedTreeB] at h
  simp only [Bool.and_eq_true] at h
  exact h.1

theorem visitAfterChildren_shape {c : CodeT} {pt tok : Option Nat} {k : NodeKind}
    {ms : List Marked} {m : Marked} (h : visitAfterChildren c pt tok k ms = some m) :
    m.children = ms ∧ m.kind = k := by
  obtain ⟨f1, l2, f2, l2x, nf, nl, f3, l3, _, _, _, _, hm⟩ := visitAfterChildren_elim h
  subst hm
  exact ⟨rfl, rfl⟩

theorem markNode_contained {c : CodeT} :
    ∀ (n : Node) {pt : Option Nat} {m : Marked},
      markNode c pt n = some m → cleanTreeB c m = true → containedTreeB m = true := by
  refine Node.strongInd
    (fun n => ∀ {pt : Option Nat} {m : Marked},
      markNode c pt n = some m → cleanTreeB c m = true → containedTreeB m = true) ?_
  intro k a mks cs ih pt m h hclean
  obtain ⟨ms, hms, hafter⟩ := markNode_elim h
  have hfa := markList_elim hms
  obtain ⟨hchm, _⟩ := visitAfterChildren_shape hafter
  obtain ⟨hcl1, hcl2⟩ := cleanTreeB_elim hclean
  rw [hchm] at hcl2
  have hcleanms : ∀ m' ∈ ms, cleanTreeB c m' = true := cleanTreeList_mem hcl2
  obtain ⟨_, _, hcont⟩ := visitAfterChildren_contained hafter
    (fun m' hm' => (cleanTreeB_elim (hcleanms m' hm')).1)
  have hlist : containedTreeList ms = true := by
    apply containedTreeList_intro
    have haux : ∀ (ns' : List Node) (ms' : List Marked),
        List.Forall₂ (fun n m' => markNode c (a <|> pt) n = some m') ns' ms' →
        (∀ n ∈ ns', ∀ {pt' : Option Nat} {m' : Marked},
          markNode c pt' n = some m' → cleanTreeB c m' = true → containedTreeB m' = true) →
        (∀ m' ∈ ms', cleanTreeB c m' = true) →
        ∀ m' ∈ ms', containedTreeB m' = true := by
      intro ns' ms' hfa'
      induction hfa' with
      | nil => intro _ _ m' hm'; cases hm'
      | cons hrel hfa2 ih2 =>
          intro hind hcl m' hm'
          rcases List.mem_cons.mp hm' with rfl | hm''
          · exact hind _ (List.mem_cons_self _ _) hrel (hcl m' (List.mem_cons_self _ _))
          · exact ih2 (fun n hn => hind n (List.mem_cons_of_mem _ hn))
              (fun x hx => hcl x (List.mem_cons_of_mem _ hx)) m' hm''
    exact haux cs ms hfa (fun n hn => ih n hn) hcleanms
  obtain ⟨mk', mf, ml, mcs⟩ := m
  simp only [Marked.children] at hchm
  subst hchm
  dsimp only [containedTreeB]
  simp only [Bool.and_eq_true]
  refine ⟨?_, hlist⟩
  rw [List.all_eq_true]
  intro r hr
  rcases List.mem_map.mp hr with ⟨m', hm', he'⟩
  subst he'
  have := hcont m' hm'
  simp only [Marked.first, Marked.last] at this
  simp only [Bool.and_eq_true, decide_eq_true_eq]
  exact this

theorem markNode_balanced {c : CodeT} :
    ∀ (n : Node) {pt : Option Nat} {m : Marked},
      markNode c pt n = some m → wfTreeB c m = true → balancedTreeB c m = true := by
  refine Node.strongInd
    (fun n => ∀ {pt : Option Nat} {m : Marked},
      markNode c pt n = some m → wfTreeB c m = true → balancedTreeB c m = true) ?_
  intro k a mks cs ih pt m h hwf
  obtain ⟨ms, hms, hafter⟩ := markNode_elim h
  have hfa := markList_elim hms
  obtain ⟨hchm, _⟩ := visitAfterChildren_shape hafter
  obtain ⟨hwf1, hwf2, hwf3⟩ := wfTreeB_elim hwf
  rw [hchm] at hwf2 hwf3
  have hwfms : ∀ m' ∈ ms, wfTreeB c m' = true := wfTreeList_mem hwf3
  have hcleanms : ∀ m' ∈ ms, cleanTokB c m'.last = true :=
    fun m' hm' => (wfTreeB_elim (hwfms m' hm')).1
  have hballist : ∀ m' ∈ ms, balancedTreeB c m' = true := by
    have haux : ∀ (ns' : List Node) (ms' : List Marked),
        List.Forall₂ (fun n m' => markNode c (a <|> pt) n = some m') ns' ms' →
        (∀ n ∈ ns', ∀ {pt' : Option Nat} {m' : Marked},
          markNode c pt' n = some m' → wfTreeB c m' = true → balancedTreeB c m' = true) →
        (∀ m' ∈ ms', wfTreeB c m' = true) →
        ∀ m' ∈ ms', balancedTreeB c m' = true := by
      intro ns' ms' hfa'
      induction hfa' with
      | nil => intro _ _ m' hm'; cases hm'
      | cons hrel hfa2 ih2 =>
          intro hind hwl m' hm'
          rcases List.mem_cons.mp hm' with rfl | hm''
          · exact hind _ (List.mem_cons_self _ _) hrel (hwl m' (List.mem_cons_self _ _))
          · exact ih2 (fun n hn => hind n (List.mem_cons_of_mem _ hn))
              (fun x hx => hwl x (List.mem_cons_of_mem _ hx)) m' hm''
    exact haux cs ms hfa (fun n hn => ih n hn) hwfms
  have hbal : ∀ r ∈ rangesOf ms, balancedB c r.1 r.2 = true := by
    intro r hr
    rcases List.mem_map.mp hr with ⟨m', hm', he'⟩
    subst he'
    exact balancedTreeB_elim (hballist m' hm')
  have hbalroot := visitAfterChildren_balanced hafter hcleanms hwf2 hbal
  obtain ⟨mk', mf, ml, mcs⟩ := m
  simp only [Marked.children] at hchm
  subst hchm
  dsimp only [balancedTreeB]
  simp only [Bool.and_eq_true]
  refine ⟨?_, balancedTreeList_intro hballist⟩
  simpa only [Marked.first, Marked.last] using hbalroot

/-! ### A second marking run ignores stored marks -/

theorem markNode_mk {c : CodeT} {pt : Option Nat} {k : NodeKind} {a : Option Nat}
    {mks : Option (Nat × Nat)} {cs : List Node} :
    markNode c pt (Node.mk k a mks cs) =
      (markList c (a <|> pt) cs).bind (fun ms => visitAfterChildren c pt a k ms) := rfl

theorem markNode_writeMarks {c : CodeT} :
    ∀ (n : Node) (pt : Option Nat) (mm : Marked),
      markNode c pt (writeMarks n mm) = markNode c pt n := by
  refine Node.strongInd
    (fun n => ∀ (pt : Option Nat) (mm : Marked),
      markNode c pt (writeMarks n mm) = markNode c pt n) ?_
  intro k a mks cs ih pt mm
  have haux : ∀ (cs' : List Node), (∀ n ∈ cs', ∀ (pt' : Option Nat) (mm' : Marked),
      markNode c pt' (writeMarks n mm') = markNode c pt' n) →
      ∀ (pr : Option Nat) (ms' : List Marked),
        markList c pr (writeMarksList cs' ms') = markList c pr cs' := by
    intro cs'
    induction cs' with
    | nil =>
        intro _ pr ms'
        cases ms' <;> rfl
    | cons n ns ih2 =>
        intro hind pr ms'
        cases ms' with
        | nil => rfl
        | cons m mtail =>
            show markList c pr (writeMarks n m :: writeMarksList ns mtail) =
              markList c pr (n :: ns)
            unfold markList
            rw [hind n (List.mem_cons_self _ _) pr m]
            rw [ih2 (fun n' hn' => hind n' (List.mem_cons_of_mem _ hn')) pr mtail]
  show markNode c pt (Node.mk k a (some (mm.first, mm.last))
      (writeMarksList cs mm.children)) = markNode c pt (Node.mk k a mks cs)
  rw [markNode_mk, markNode_mk, haux cs (fun n hn => ih n hn) (a <|> pt) mm.children]

/-! ### Fuel bounds for the loops -/

/-- The gap-scan loop of `_iter_non_child_tokens`, indexed by fuel
(`none` = the fuel ran out; `some r` = the loop finished with outcome `r`). -/
def iterGapsFuel (c : CodeT) : Nat → Nat → Nat → List (Nat × Nat) → Option (Option (List Nat))
  | 0, _, _, _ => none
  | _ + 1, first, last, [] => some (some (tokenRange first last))
  | fuel + 1, first, last, (f, l) :: rest =>
      match prevToken c f with
      | none => some none
      | some p =>
          if last ≤ l then
            some (some (tokenRange first p))
          else
            match nextToken c l with
            | none => some none
            | some tok =>
                match iterGapsFuel c fuel tok last rest with
                | none => none
                | some none => some none
                | some (some more) => some (some (tokenRange first p ++ more))

theorem iterGapsFuel_enough {c : CodeT} :
    ∀ (rs : List (Nat × Nat)) (first last : Nat),
      iterGapsFuel c (rs.length + 1) first last rs = some (iterNonChildTokens c first last rs) := by
  intro rs
  induction rs with
  | nil => intro first last; rfl
  | cons hd tl ih =>
      intro first last
      obtain ⟨f, l⟩ := hd
      show iterGapsFuel c (tl.length + 1 + 1) first last ((f, l) :: tl) = _
      dsimp only [iterGapsFuel]
      unfold iterNonChildTokens
      rw [Option.bind_eq_bind]
      cases hp : prevToken c f with
      | none => rfl
      | some p =>
          simp only [Option.some_bind]
          by_cases hstop : last ≤ l
          · rw [if_pos hstop]
            simp [hstop]
          · rw [if_neg hstop]
            simp only [Option.bind_eq_bind, if_neg hstop]
            cases hn : nextToken c l with
            | none => rfl
            | some tok =>
                simp only [Option.some_bind]
                rw [ih tok last]
                cases hm : iterNonChildTokens c tok last tl with
                | none => rfl
                | some more => rfl

/-! ### The order of the extension loops -/

theorem extendRight_get {c : CodeT} :
    ∀ {ms : List (TokKind × String)} {l l' : Nat}, extendRight c l ms = some l' →
      ∀ i (h : i < ms.length), tokPair c (l + 1 + i) = ms.get ⟨i, h⟩ := by
  intro ms
  induction ms with
  | nil => intro l l' _ i h; cases h
  | cons m ms ih =>
      intro l l' h i hi
      unfold extendRight at h
      rw [Option.bind_eq_bind] at h
      cases hn : nextToken c l with
      | none => rw [hn] at h; cases h
      | some l1 =>
          rw [hn] at h
          simp only [Option.some_bind] at h
          obtain ⟨hb, rfl⟩ := nextToken_eq_some.mp hn
          by_cases htok : tokPair c (l + 1) = m
          · rw [if_pos htok] at h
            cases i with
            | zero => simpa using htok
            | succ j =>
                have := ih h j (by simpa using hi)
                have he : l + 1 + (j + 1) = l + 1 + 1 + j := by omega
                rw [he]
                simpa using this
          · rw [if_neg htok] at h
            cases h

theorem extendLeft_get {c : CodeT} :
    ∀ {ms : List (TokKind × String)} {f f' : Nat}, extendLeft c f ms = some f' →
      ∀ i (h : i < ms.length), tokPair c (f - 1 - i) = ms.get ⟨i, h⟩ := by
  intro ms
  induction ms with
  | nil => intro f f' _ i h; cases h
  | cons m ms ih =>
      intro f f' h i hi
      unfold extendLeft at h
      rw [Option.bind_eq_bind] at h
      cases hn : prevToken c f with
      | none => rw [hn] at h; cases h
      | some f1 =>
          rw [hn] at h
          simp only [Option.some_bind] at h
          obtain ⟨hb, rfl⟩ := prevToken_eq_some.mp hn
          by_cases htok : tokPair c (f - 1) = m
          · rw [if_pos htok] at h
            cases i with
            | zero => simpa using htok
            | succ j =>
                have := ih h j (by simpa using hi)
                have he : f - 1 - (j + 1) = f - 1 - 1 - j := by omega
                rw [he]
                simpa using this
          · rw [if_neg htok] at h
            cases h

/-- Modelled from the spec: the extension order as the claim words it —
needs-closer entries in encounter order, needs-opener entries in reverse
encounter order (`scanBrackets` returns the pending-closer stack most
recent first, so `.reverse` is encounter order, and the needed openers in
encounter order, so `.reverse` is reverse encounter order). -/
def expandClaimed (c : CodeT) (first last : Nat) (rs : List (Nat × Nat)) :
    Option (Nat × Nat) := do
  let gs ← iterNonChildTokens c first last rs
  let st := scanBrackets c gs
  let l' ← extendRight c last st.1.reverse
  let f' ← extendLeft c first st.2.reverse
  some (f', l')

theorem matchTokB_none_iff {c : CodeT} {i : Nat} {k : TokKind} :
    matchTokB c i k none = true ↔ (tokAt c i).kind = k := by
  unfold matchTokB
  simp

/-! ### Concrete streams and trees used as witnesses and counterexamples -/

/-- Stream `x y NEWLINE ENDMARKER`. -/
def codeXY : CodeT :=
  ⟨[⟨TokKind.NAME, "x"⟩, ⟨TokKind.NAME, "y"⟩, ⟨TokKind.NEWLINE, ""⟩, ⟨TokKind.ENDMARKER, ""⟩]⟩

/-- A statement node anchored at `x` whose only child sits on the NEWLINE token. -/
def nodeOnNewline : Node :=
  Node.mk NodeKind.stmt (some 0) none [Node.mk NodeKind.other (some 2) none []]

/-- The marking of `nodeOnNewline`: the statement extension steps back past
the child, so the parent range [0,1] fails to contain the child range [2,2]. -/
def markedOnNewline : Marked :=
  Marked.mk NodeKind.stmt 0 1 [Marked.mk NodeKind.other 2 2 []]

/-- A statement node anchored at `x` with a child at `y`. -/
def nodeXY : Node :=
  Node.mk NodeKind.stmt (some 0) none [Node.mk NodeKind.other (some 1) none []]

/-- Its marking: [0,1] containing the child range [1,1]. -/
def markedXY : Marked :=
  Marked.mk NodeKind.stmt 0 1 [Marked.mk NodeKind.other 1 1 []]

/-- Stream `x b ( c y a ) ) NEWLINE ENDMARKER`. -/
def codeOutOfOrder : CodeT :=
  ⟨[⟨TokKind.NAME, "x"⟩, ⟨TokKind.NAME, "b"⟩, ⟨TokKind.OP, "("⟩, ⟨TokKind.NAME, "c"⟩,
    ⟨TokKind.NAME, "y"⟩, ⟨TokKind.NAME, "a"⟩, ⟨TokKind.OP, ")"⟩, ⟨TokKind.OP, ")"⟩,
    ⟨TokKind.NEWLINE, ""⟩, ⟨TokKind.ENDMARKER, ""⟩]⟩

/-- A node whose three children are enumerated out of source order
(anchors 3, 1, 5): the gap scan re-visits token 2's `(` twice. -/
def nodeOutOfOrder : Node :=
  Node.mk NodeKind.other (some 0) none
    [Node.mk NodeKind.other (some 3) none [], Node.mk NodeKind.other (some 1) none [],
      Node.mk NodeKind.other (some 5) none []]

/-- Its marking: the double-counted `(` makes repair append two `)`,
yielding the unbalanced range [0,7]. -/
def markedOutOfOrder : Marked :=
  Marked.mk NodeKind.other 0 7
    [Marked.mk NodeKind.other 3 3 [], Marked.mk NodeKind.other 1 1 [],
      Marked.mk NodeKind.other 5 5 []]

/-- Stream `x ( y ) NEWLINE ENDMARKER`. -/
def codeParen : CodeT :=
  ⟨[⟨TokKind.NAME, "x"⟩, ⟨TokKind.OP, "("⟩, ⟨TokKind.NAME, "y"⟩, ⟨TokKind.OP, ")"⟩,
    ⟨TokKind.NEWLINE, ""⟩, ⟨TokKind.ENDMARKER, ""⟩]⟩

/-- A node anchored at `x` with one child at `y` inside the parens. -/
def nodeParen : Node :=
  Node.mk NodeKind.other (some 0) none [Node.mk NodeKind.other (some 2) none []]

/-- Its marking: repair extends the range over the closing paren [0,3]. -/
def markedParen : Marked :=
  Marked.mk NodeKind.other 0 3 [Marked.mk NodeKind.other 2 2 []]

/-- Seven one-letter name tokens, for pure gap-scan examples. -/
def codeNames : CodeT :=
  ⟨[⟨TokKind.NAME, "a"⟩, ⟨TokKind.NAME, "b"⟩, ⟨TokKind.NAME, "c"⟩, ⟨TokKind.NAME, "d"⟩,
    ⟨TokKind.NAME, "e"⟩, ⟨TokKind.NAME, "f"⟩, ⟨TokKind.NAME, "g"⟩]⟩

/-- Stream `( [ ] ) NEWLINE ENDMARKER`. -/
def codeBrackets : CodeT :=
  ⟨[⟨TokKind.OP, "("⟩, ⟨TokKind.OP, "["⟩, ⟨TokKind.OP, "]"⟩, ⟨TokKind.OP, ")"⟩,
    ⟨TokKind.NEWLINE, ""⟩, ⟨TokKind.ENDMARKER, ""⟩]⟩

/-- Stream holding a single name token. -/
def codeSingle : CodeT := ⟨[⟨TokKind.NAME, "x"⟩]⟩

/-- A tuple node at the single token: the trailing-comma probe steps past
the end of the stream. -/
def nodeSingleTuple : Node := Node.mk NodeKind.tuple (some 0) none []

/-- Stream holding a single operator token. -/
def codeSingleOp : CodeT := ⟨[⟨TokKind.OP, "-"⟩]⟩


/-! ### The claims -/

/-- C1 (amended): after the marking pass completes on a rooted tree, provided
no processed node's final `last_token` is a NEWLINE or ENDMARKER token (true
of trees a parser produces over the same source), every parent's final token
range contains every child's final token range. -/
theorem claimC1 : ∀ (c : CodeT) (n : Node) (m : Marked),
    visitTree c n = some m → cleanTreeB c m = true → containedTreeB m = true :=
  fun _ n m h hc => markNode_contained n h hc

/-- C1 witness: on `x y NEWLINE ENDMARKER` with a statement at `x` and a
child at `y`, the marking is clean and containment holds. -/
theorem claimC1_witness : containedTreeB markedXY = true :=
  claimC1 codeXY nodeXY markedXY rfl rfl

/-- C1 counterexample: with a child anchored on the NEWLINE token, the
statement-line extension steps the parent's `last` back to token 1 while
the child ends at token 2 — the marking succeeds and containment fails,
refuting the claim as stated for arbitrary rooted trees. -/
theorem claimC1_counterexample :
    visitTree codeXY nodeOnNewline = some markedOnNewline ∧
      containedTreeB markedOnNewline = false :=
  ⟨rfl, rfl⟩

/-- C2 (amended): after the marking pass completes, provided every node's
children are enumerated in increasing source order with disjoint ranges and
every node ends on a non-NEWLINE/ENDMARKER token, each delimiter kind has as
many openers as closers within every node's final range. -/
theorem claimC2 : ∀ (c : CodeT) (n : Node) (m : Marked),
    visitTree c n = some m → wfTreeB c m = true → balancedTreeB c m = true :=
  fun _ n m h hw => markNode_balanced n h hw

/-- C2 witness: on `x ( y ) NEWLINE ENDMARKER`, the bracket repair extends
the node over the closing paren and every node's range is balanced. -/
theorem claimC2_witness : balancedTreeB codeParen markedParen = true :=
  claimC2 codeParen nodeParen markedParen rfl rfl

/-- C2 counterexample: with three children enumerated out of source order
the gap scan visits the `(` at token 2 twice, the repair appends two `)`,
and the node's final range `x b ( c y a ) )` has one opener against two
closers — the marking succeeds and balance fails, refuting the claim as
stated for arbitrary child enumeration orders. -/
theorem claimC2_counterexample :
    visitTree codeOutOfOrder nodeOutOfOrder = some markedOutOfOrder ∧
      balancedTreeB codeOutOfOrder markedOutOfOrder = false :=
  ⟨rfl, rfl⟩

/-- C3 (amended): when the node's children are enumerated in increasing
source order with disjoint well-formed ranges inside `[first, last]`, the
gap scan visits exactly the tokens of `[first, last]` that belong to no
child's range; for other enumeration orders this fails. -/
theorem claimC3 : ∀ (c : CodeT) (a last : Nat) (rs : List (Nat × Nat)) (gs : List Nat),
    iterNonChildTokens c a last rs = some gs → childrenOrderedB a last rs = true →
      gs = gapSpec a last rs :=
  fun _ _ _ _ _ h hco => iterNonChildTokens_eq_gapSpec h hco

/-- C3 witness: source-ordered children (1,2) and (4,4) inside [0,5] make
the scan visit exactly the gap tokens 0, 3 and 5. -/
theorem claimC3_witness : ([0, 3, 5] : List Nat) = gapSpec 0 5 [(1, 2), (4, 4)] :=
  claimC3 codeNames 0 5 [(1, 2), (4, 4)] [0, 3, 5] rfl rfl

/-- C3 counterexample: with the same two children enumerated in reverse
source order the scan visits every token of [0,5], including the child
tokens 1, 2, 3 and 4 — refuting the claim's order-independence. -/
theorem claimC3_counterexample :
    iterNonChildTokens codeNames 0 5 [(3, 4), (1, 2)] = some [0, 1, 2, 3, 4, 5] ∧
      gapSpec 0 5 [(3, 4), (1, 2)] = [0, 5] ∧
      ([0, 1, 2, 3, 4, 5] : List Nat) ≠ [0, 5] :=
  ⟨rfl, rfl, by decide⟩

/-- C4 (amended): after the scan, `last` is advanced one token at a time
through the pending-closer entries in REVERSE encounter order (the stack's
most recent entry first), each step asserting the new token equals the
expected closer; and `first` is stepped backward through the needed-opener
entries in ENCOUNTER order with the same assertion.  (`scanBrackets`
returns the pending closers most recent first and the needed openers in
encounter order, so position `i` of each list is matched directly.) -/
theorem claimC4 : ∀ (c : CodeT) (f l : Nat) (rs : List (Nat × Nat)) (f' l' : Nat),
    expandToMatchingPairs c f l rs = some (f', l') →
    ∃ gs, iterNonChildTokens c f l rs = some gs ∧
      l' = l + (scanBrackets c gs).1.length ∧
      (∀ i (h : i < (scanBrackets c gs).1.length),
        tokPair c (l + 1 + i) = (scanBrackets c gs).1.get ⟨i, h⟩) ∧
      f' + (scanBrackets c gs).2.length = f ∧
      (∀ i (h : i < (scanBrackets c gs).2.length),
        tokPair c (f - 1 - i) = (scanBrackets c gs).2.get ⟨i, h⟩) := by
  intro c f l rs f' l' h
  obtain ⟨gs, hgs, hr, hl⟩ := expand_some_elim h
  exact ⟨gs, hgs, (extendRight_some hr).1, extendRight_get hr,
    (extendLeft_some hl).1, extendLeft_get hl⟩

/-- C4 witness: on the gap `( [` of `( [ ] ) NEWLINE ENDMARKER` the repair
appends `]` then `)` — the reverse of the encounter order of the openers. -/
theorem claimC4_witness :
    ∃ gs, iterNonChildTokens codeBrackets 0 1 [] = some gs ∧
      3 = 1 + (scanBrackets codeBrackets gs).1.length ∧
      (∀ i (h : i < (scanBrackets codeBrackets gs).1.length),
        tokPair codeBrackets (1 + 1 + i) = (scanBrackets codeBrackets gs).1.get ⟨i, h⟩) ∧
      0 + (scanBrackets codeBrackets gs).2.length = 0 ∧
      (∀ i (h : i < (scanBrackets codeBrackets gs).2.length),
        tokPair codeBrackets (0 - 1 - i) = (scanBrackets codeBrackets gs).2.get ⟨i, h⟩) :=
  claimC4 codeBrackets 0 1 [] 0 3 rfl

/-- C4 counterexample: on the same gap `( [`, processing the needs-closer
list in encounter order (as the claim states) would assert `)` where the
stream holds `]` and fail, while the code succeeds — the claim has the two
processing orders swapped. -/
theorem claimC4_counterexample :
    expandToMatchingPairs codeBrackets 0 1 [] = some (0, 3) ∧
      expandClaimed codeBrackets 0 1 [] = none :=
  ⟨rfl, rfl⟩

/-- C5: for statement nodes the combiner extends `last` via
`_find_last_in_line`, which returns the token just before the first NEWLINE
at or after `last`, falling back to the first ENDMARKER when no NEWLINE
exists before end of input; non-statement nodes are not extended. -/
theorem claimC5 : ∀ (c : CodeT) (k : NodeKind) (s r : Nat),
    (isStmt k = true → stmtLast c k s = findLastInLine c s) ∧
    (isStmt k = false → stmtLast c k s = some s) ∧
    (findLastInLine c s = some r →
      ∃ nl, nl = r + 1 ∧ s ≤ nl ∧ nl < c.toks.length ∧
        (((tokAt c nl).kind = TokKind.NEWLINE ∧
            ∀ j, s ≤ j → j < nl → (tokAt c j).kind ≠ TokKind.NEWLINE) ∨
          ((∀ j, s ≤ j → j < c.toks.length → (tokAt c j).kind ≠ TokKind.NEWLINE) ∧
            (tokAt c nl).kind = TokKind.ENDMARKER ∧
            ∀ j, s ≤ j → j < nl → (tokAt c j).kind ≠ TokKind.ENDMARKER))) := by
  intro c k s r
  refine ⟨?_, ?_, ?_⟩
  · intro hk
    unfold stmtLast
    rw [if_pos hk]
  · intro hk
    unfold stmtLast
    rw [if_neg (by simp [hk])]
  · intro h
    unfold findLastInLine at h
    rw [Option.bind_eq_bind] at h
    cases hf : findTokenFwd c s TokKind.NEWLINE none with
    | some nl =>
        rw [hf] at h
        simp only [Option.some_bind] at h
        obtain ⟨hs, hlt, hm, hmin⟩ := findTokenFwd_some hf
        obtain ⟨hpos, rfl⟩ := prevToken_eq_some.mp h
        refine ⟨nl, by omega, hs, hlt, Or.inl ⟨matchTokB_none_iff.mp hm, ?_⟩⟩
        intro j hj1 hj2 hk
        have := hmin j hj1 hj2
        rw [← matchTokB_none_iff (c := c) (i := j) (k := TokKind.NEWLINE)] at hk
        rw [this] at hk
        cases hk
    | none =>
        rw [hf] at h
        simp only [Option.none_bind] at h
        cases hf2 : findTokenFwd c s TokKind.ENDMARKER none with
        | none => rw [hf2] at h; cases h
        | some em =>
            rw [hf2] at h
            simp only [Option.some_bind] at h
            obtain ⟨hs, hlt, hm, hmin⟩ := findTokenFwd_some hf2
            obtain ⟨hpos, rfl⟩ := prevToken_eq_some.mp h
            refine ⟨em, by omega, hs, hlt, Or.inr ⟨?_, matchTokB_none_iff.mp hm, ?_⟩⟩
            · intro j hj1 hj2 hk
              have := findTokenFwd_none hf j hj1 hj2
              rw [← matchTokB_none_iff (c := c) (i := j) (k := TokKind.NEWLINE)] at hk
              rw [this] at hk
              cases hk
            · intro j hj1 hj2 hk
              have := hmin j hj1 hj2
              rw [← matchTokB_none_iff (c := c) (i := j) (k := TokKind.ENDMARKER)] at hk
              rw [this] at hk
              cases hk

/-- C5 witness: on `x y NEWLINE ENDMARKER`, `_find_last_in_line` from token
0 finds the NEWLINE at index 2 and steps back to token 1. -/
theorem claimC5_witness :
    ∃ nl, nl = 1 + 1 ∧ 0 ≤ nl ∧ nl < codeXY.toks.length ∧
      (((tokAt codeXY nl).kind = TokKind.NEWLINE ∧
          ∀ j, 0 ≤ j → j < nl → (tokAt codeXY j).kind ≠ TokKind.NEWLINE) ∨
        ((∀ j, 0 ≤ j → j < codeXY.toks.length → (tokAt codeXY j).kind ≠ TokKind.NEWLINE) ∧
          (tokAt codeXY nl).kind = TokKind.ENDMARKER ∧
          ∀ j, 0 ≤ j → j < nl → (tokAt codeXY j).kind ≠ TokKind.ENDMARKER)) :=
  (claimC5 codeXY NodeKind.stmt 0 1).2.2 rfl

/-- C6: the combiner computes the preliminary `first` as the minimum-index
token among the node's own anchor and all children's `first_token`s, and
the preliminary `last` as the maximum among the children's `last_token`s,
independent of the enumeration order (stated as: the results are the
minimum/maximum of the respective multisets, and are invariant under every
permutation of the child list); with no anchor and no children `first`
falls back to the inherited parent anchor, and with no children `last`
defaults to `first`. -/
theorem claimC6 :
    (∀ (tok : Option Nat) (ms : List Marked) (v : Nat), combFirst tok ms = some v →
      v ∈ tok.toList ++ ms.map Marked.first ∧ ∀ x ∈ tok.toList ++ ms.map Marked.first, v ≤ x) ∧
    (∀ (tok : Option Nat) (ms : List Marked),
      combFirst tok ms = none ↔ tok = none ∧ ms = []) ∧
    (∀ (ms : List Marked) (v : Nat), combLast ms = some v →
      v ∈ ms.map Marked.last ∧ ∀ x ∈ ms.map Marked.last, x ≤ v) ∧
    (∀ ms : List Marked, combLast ms = none ↔ ms = []) ∧
    (∀ (tok : Option Nat) (ms ms' : List Marked), ms.Perm ms' →
      combFirst tok ms = combFirst tok ms' ∧ combLast ms = combLast ms') ∧
    (∀ (c : CodeT) (k : NodeKind) (pt tok : Option Nat), isStmt k = false →
      prelimRange c pt tok k [] = (tok <|> pt).map (fun t => (t, t))) := by
  refine ⟨?_, fun tok ms => combFirst_none_iff, ?_, fun ms => combLast_none_iff,
    fun tok ms ms' hp => ⟨combFirst_perm hp, combLast_perm hp⟩, ?_⟩
  · intro tok ms v h
    obtain ⟨h1, h2, h3⟩ := combFirst_le h
    constructor
    · rcases h3 with he | hm
      · subst he
        simp
      · simp only [List.mem_append]
        exact Or.inr hm
    · intro x hx
      rcases List.mem_append.mp hx with hx1 | hx2
      · apply h2
        cases tok with
        | none => cases hx1
        | some t =>
            simp only [Option.toList_some, List.mem_singleton] at hx1
            rw [hx1]
      · rcases List.mem_map.mp hx2 with ⟨m', hm', he'⟩
        subst he'
        exact h1 m' hm'
  · intro ms v h
    obtain ⟨h1, h2⟩ := combLast_ge h
    refine ⟨h2, ?_⟩
    intro x hx
    rcases List.mem_map.mp hx with ⟨m', hm', he'⟩
    subst he'
    exact h1 m' hm'
  · intro c k pt tok hk
    unfold prelimRange
    rw [Option.bind_eq_bind]
    have hcf : combFirst tok ([] : List Marked) = tok := rfl
    rw [hcf]
    have hcl : combLast ([] : List Marked) = none := rfl
    rw [hcl]
    cases htp : (tok <|> pt) with
    | none => rfl
    | some t =>
        simp only [Option.some_bind, Option.getD_none]
        unfold stmtLast
        rw [if_neg (by simp [hk])]
        rfl

/-- C6 witness: with anchor token 5 and one child starting at 3, the
combined `first` is 3, the minimum of the two. -/
theorem claimC6_witness :
    3 ∈ (some 5 : Option Nat).toList ++ [Marked.mk NodeKind.other 3 3 []].map Marked.first ∧
      ∀ x ∈ (some 5 : Option Nat).toList ++
          [Marked.mk NodeKind.other 3 3 []].map Marked.first, 3 ≤ x :=
  claimC6.1 (some 5) [Marked.mk NodeKind.other 3 3 []] 3 rfl

/-- C7 (amended): stream-boundary failures in the marking loops surface as
failures — stepping past the stream end in bracket repair or in the
numeric-literal loop, or past the stream start, aborts the computation —
EXCEPT in the tuple refinement's trailing-comma probe, which deliberately
catches the failure of stepping past the last token and leaves the range
unchanged. -/
theorem claimC7 : ∀ (c : CodeT) (f l : Nat) (m : TokKind × String)
    (ms : List (TokKind × String)),
    (nextToken c l = none → visitMethod c NodeKind.tuple f l = some (f, l)) ∧
    (c.toks.length ≤ l + 1 → extendRight c l (m :: ms) = none) ∧
    (extendLeft c 0 (m :: ms) = none) ∧
    ((tokAt c l).kind = TokKind.OP → c.toks.length ≤ l + 1 → visitNumLoop c l = none) := by
  intro c f l m ms
  refine ⟨?_, ?_, ?_, ?_⟩
  · intro h
    simp [visitMethod, h]
  · intro h
    unfold extendRight
    rw [Option.bind_eq_bind]
    have hn : nextToken c l = none := by
      unfold nextToken
      rw [if_neg (by omega)]
    rw [hn]
    rfl
  · unfold extendLeft
    rw [Option.bind_eq_bind]
    have hp : prevToken c 0 = none := rfl
    rw [hp]
    rfl
  · intro hop hlen
    have hgo : visitNumGo c (c.toks.length + 1) l = some none := by
      unfold visitNumGo
      rw [if_pos (by simp [hop]), if_neg (by omega)]
    unfold visitNumLoop
    rw [hgo]

/-- C7 witness: at the one-token streams, the tuple probe swallows the
boundary failure while the repair loops and the numeric loop fail. -/
theorem claimC7_witness :
    visitMethod codeSingle NodeKind.tuple 0 0 = some (0, 0) ∧
      extendRight codeSingle 0 [(TokKind.OP, ")")] = none ∧
      extendLeft codeSingle 0 [(TokKind.OP, "(")] = none ∧
      visitNumLoop codeSingleOp 0 = none :=
  ⟨(claimC7 codeSingle 0 0 (TokKind.OP, ")") []).1 rfl,
    (claimC7 codeSingle 0 0 (TokKind.OP, ")") []).2.1 (by decide),
    (claimC7 codeSingle 0 0 (TokKind.OP, "(") []).2.2.1,
    (claimC7 codeSingleOp 0 0 (TokKind.OP, ")") []).2.2.2 rfl (by decide)⟩

/-- C7 counterexample: a tuple node ending at the final token of the
stream: `next_token` fails at the boundary, yet the whole marking succeeds
unchanged — the failure is swallowed, refuting the claim that no operation
silently swallows a stream-boundary failure. -/
theorem claimC7_counterexample :
    nextToken codeSingle 0 = none ∧
      visitTree codeSingle nodeSingleTuple = some (Marked.mk NodeKind.tuple 0 0 []) :=
  ⟨rfl, rfl⟩

/-- C8: running the marking pass a second time on the same tree and token
stream — with the first run's `first_token`/`last_token` fields written
into the tree and ignored by the recomputation — assigns every node
exactly the same pair as the first run. -/
theorem claimC8 : ∀ (c : CodeT) (pt : Option Nat) (n : Node) (m1 : Marked),
    markNode c pt n = some m1 → markNode c pt (writeMarks n m1) = some m1 := by
  intro c pt n m1 h
  rw [markNode_writeMarks n pt m1]
  exact h

/-- C8 witness: remarking the marked `x ( y )` tree reproduces the same
ranges. -/
theorem claimC8_witness :
    markNode codeParen none (writeMarks nodeParen markedParen) = some markedParen :=
  claimC8 codeParen none nodeParen markedParen rfl

/-- C9: the marking loops terminate within explicit finite fuel — one more
than the stream length suffices for the operator-skipping loop of
`visit_num`, and one more than the child count suffices for the gap scan
of `_iter_non_child_tokens` (so both loops complete after finitely many
steps on every input, with the fuel-free functions as their values). -/
theorem claimC9 :
    (∀ (c : CodeT) (l : Nat),
      visitNumGo c (c.toks.length + 1) l = some (visitNumLoop c l)) ∧
    (∀ (c : CodeT) (first last : Nat) (rs : List (Nat × Nat)),
      iterGapsFuel c (rs.length + 1) first last rs =
        some (iterNonChildTokens c first last rs)) := by
  constructor
  · intro c l
    obtain ⟨r, hr, he⟩ := visitNumLoop_eq_go (c := c) (l := l)
    rw [hr, he]
  · exact fun c first last rs => iterGapsFuel_enough rs first last

/-- C10: every node-kind refinement and every bracket-repair pass only ever
widens a range, and consequently each node's final stored range contains
its preliminary combined range. -/
theorem claimC10 :
    (∀ (c : CodeT) (f l : Nat) (rs : List (Nat × Nat)) (f' l' : Nat),
      expandToMatchingPairs c f l rs = some (f', l') → f' ≤ f ∧ l ≤ l') ∧
    (∀ (c : CodeT) (k : NodeKind) (f l f' l' : Nat),
      visitMethod c k f l = some (f', l') → f' ≤ f ∧ l ≤ l') ∧
    (∀ (c : CodeT) (pt tok : Option Nat) (k : NodeKind) (ms : List Marked)
      (m : Marked) (p : Nat × Nat),
      visitAfterChildren c pt tok k ms = some m →
        prelimRange c pt tok k ms = some p → m.first ≤ p.1 ∧ p.2 ≤ m.last) := by
  refine ⟨fun c f l rs f' l' h => expand_widen h,
    fun c k f l f' l' h => visitMethod_widen h, ?_⟩
  intro c pt tok k ms m p h hp
  obtain ⟨f1, l2, f2, l2x, nf, nl, f3, l3, hp2, he, hv, hbr, hm⟩ := visitAfterChildren_elim h
  subst hm
  rw [hp2] at hp
  simp only [Option.some.injEq] at hp
  subst hp
  obtain ⟨hw1a, hw1b⟩ := expand_widen he
  obtain ⟨hw2a, hw2b⟩ := visitMethod_widen hv
  rcases hbr with ⟨_, rfl, rfl⟩ | ⟨_, he2⟩
  · exact ⟨by rw [Marked_first_mk]; omega, by rw [Marked_last_mk]; omega⟩
  · obtain ⟨hw3a, hw3b⟩ := expand_widen he2
    exact ⟨by rw [Marked_first_mk]; omega, by rw [Marked_last_mk]; omega⟩

/-- C10 witness: the repair of the unclosed `( [` widens (0, 1) to (0, 3). -/
theorem claimC10_witness : (0 : Nat) ≤ 0 ∧ (1 : Nat) ≤ 3 :=
  claimC10.1 codeBrackets 0 1 [] 0 3 rfl
